import Mathlib

/-!
Verification of the NN_Chatbot data-preparation and model code
(`vocab.py`, `utils.py`, `model.py`).

Python dictionaries are embedded as insertion-ordered association lists
(`List (κ × ν)`): `dget` is `d[k]` (returning `Option`), `dset` is
`d[k] = v` (update in place when the key is present, append otherwise),
which matches CPython's insertion-order-preserving dict semantics for the
operations the source uses.  Code that can raise is embedded with
`Except String` results whose error strings name the Python exception.
-/

set_option maxRecDepth 4096

/-- `d[k]` for a Python dict: value of the first entry whose key is `k`. -/
def dget {κ ν : Type} [DecidableEq κ] : List (κ × ν) → κ → Option ν
  | [], _ => none
  | kv :: d, k => if kv.1 = k then some kv.2 else dget d k

/-- `k in d` for a Python dict. -/
def dcontains {κ ν : Type} [DecidableEq κ] (d : List (κ × ν)) (k : κ) : Bool :=
  (dget d k).isSome

/-- `d[k] = x` for a Python dict: replace the value in place when the key is
present (keeping its position), append a new entry otherwise. -/
def dset {κ ν : Type} [DecidableEq κ] : List (κ × ν) → κ → ν → List (κ × ν)
  | [], k, x => [(k, x)]
  | kv :: d, k, x => if kv.1 = k then (k, x) :: d else kv :: dset d k x

/-- Helper of `pySplit`: accumulates the current token (reversed) while
scanning. -/
def pySplitAux : List Char → List Char → List String
  | acc, [] => [String.mk acc.reverse]
  | acc, c :: cs =>
    if c = ' ' then String.mk acc.reverse :: pySplitAux [] cs
    else pySplitAux (c :: acc) cs

/-- Python's `s.split(' ')`: split on every single space, keeping empty
tokens (so `''.split(' ') == ['']` and `'a  b'.split(' ') == ['a','','b']`). -/
def pySplit (s : String) : List String :=
  pySplitAux [] s.data

/-- State of `vocab.Vocab`: corpus name, the one-shot `trimmed` flag, the
word→index and word→count dicts, the index→word dict (seeded with the three
reserved tokens), and the running `num_words` counter. -/
structure Vocab where
  name : String
  trimmed : Bool
  word2idx : List (String × Nat)
  word2cnt : List (String × Nat)
  idx2word : List (Nat × String)
  num_words : Nat
  deriving Repr, DecidableEq

/-- `Vocab.__init__`: empty word maps, reserved entries 0/1/2 in `idx2word`,
`num_words = 3`. -/
def Vocab.init (corpus_name : String) : Vocab :=
  { name := corpus_name
    trimmed := false
    word2idx := []
    word2cnt := []
    idx2word := [(0, "<PAD>"), (1, "<SOS>"), (2, "<EOS>")]
    num_words := 3 }

/-- `Vocab.addWord`: an unseen word gets the next sequential index and count 1;
a seen word has its count bumped.  (In the `else` branch the source reads
`self.word2cnt[word]`; for every vocabulary the program builds, membership in
`word2idx` and in `word2cnt` coincide, so the lookup cannot fail and the
embedding's `getD 0` default is never exercised.) -/
def Vocab.addWord (v : Vocab) (word : String) : Vocab :=
  if dcontains v.word2idx word then
    { v with word2cnt := dset v.word2cnt word ((dget v.word2cnt word).getD 0 + 1) }
  else
    { v with
      word2idx := dset v.word2idx word v.num_words
      word2cnt := dset v.word2cnt word 1
      idx2word := dset v.idx2word v.num_words word
      num_words := v.num_words + 1 }

/-- `Vocab.addSentence`: `addWord` on each `' '`-separated token. -/
def Vocab.addSentence (v : Vocab) (sentence : String) : Vocab :=
  (pySplit sentence).foldl Vocab.addWord v

/-- Result of `Vocab.trim`: the object state after the call together with the
exception (if one was raised while printing the retention ratio). -/
structure TrimOut where
  state : Vocab
  err : Option String
  deriving Repr, DecidableEq

/-- `Vocab.trim`: returns immediately when `trimmed` is already set; otherwise
sets the flag, collects the words whose count is at least `min_count`
(in `word2cnt` insertion order), prints
`len(keep_words)/len(self.word2cnt)` — which raises `ZeroDivisionError`
when `word2cnt` is empty, leaving only the flag mutated — and then rebuilds
all maps from scratch by re-adding the kept words. -/
def Vocab.trim (v : Vocab) (min_count : Nat) : TrimOut :=
  if v.trimmed then ⟨v, none⟩
  else
    let keep_words := (v.word2cnt.filter (fun kv => min_count ≤ kv.2)).map (·.1)
    if v.word2cnt.length = 0 then
      ⟨{ v with trimmed := true }, some "ZeroDivisionError: division by zero"⟩
    else
      ⟨keep_words.foldl Vocab.addWord { Vocab.init v.name with trimmed := true }, none⟩

/-- Schema of the persisted vocabulary (`generated/vocab.json`): the three
mappings exactly as `vocab.save` dumps them.  (The physical JSON encoding,
e.g. stringified integer keys, is out of scope.) -/
structure Persisted where
  word2idx : List (String × Nat)
  word2cnt : List (String × Nat)
  idx2word : List (Nat × String)
  deriving Repr, DecidableEq

/-- `vocab.save`, vocabulary part: dumps the three maps of the `Vocab` object
verbatim.  (Writing the pairs file is file I/O, out of scope.) -/
def save (voc : Vocab) : Persisted :=
  { word2idx := voc.word2idx, word2cnt := voc.word2cnt, idx2word := voc.idx2word }

/-- `utils.load`, vocabulary part: builds a fresh `Vocab("Cornell_Movie")`,
marks it trimmed, copies the three persisted maps verbatim, sets `num_words`
to `len(idx2word)`, and then assigns `word2idx['<PAD>'] = 0`,
`word2idx['<SOS>'] = 1`, `word2idx['<EOS>'] = 2`.  The source performs no
validation whatsoever, so on a schema-conformant entry no exception can be
raised; the `Except` codomain records that a Python callee could in principle
signal failure by exception — `load` never does.  (File reading, JSON parsing
and the pairs file are I/O, out of scope.) -/
def load (entry : Persisted) : Except String Vocab :=
  let v : Vocab :=
    { name := "Cornell_Movie"
      trimmed := true
      word2idx := entry.word2idx
      word2cnt := entry.word2cnt
      idx2word := entry.idx2word
      num_words := entry.idx2word.length }
  .ok { v with
          word2idx := dset (dset (dset v.word2idx "<PAD>" 0) "<SOS>" 1) "<EOS>" 2 }

/-- A Python list comprehension `[f(x) for x in l]` whose body can raise:
evaluates left to right and propagates the first exception. -/
def mapME {α β : Type} (f : α → Except String β) : List α → Except String (List β)
  | [] => .ok []
  | x :: xs => do
    let y ← f x
    let ys ← mapME f xs
    .ok (y :: ys)

/-- `voc.word2idx[w]`, raising `KeyError` (a `LookupError`) when absent. -/
def w2i (voc : Vocab) (w : String) : Except String Nat :=
  match dget voc.word2idx w with
  | some i => .ok i
  | none => .error ("KeyError: " ++ w)

/-- `utils.indexesFromSentence`: looks up every `' '`-separated token of the
sentence in `word2idx` (left to right, first missing token raises `KeyError`),
then appends `word2idx['<EOS>']`. -/
def indexesFromSentence (voc : Vocab) (sentence : String) : Except String (List Nat) := do
  let idxs ← mapME (w2i voc) (pySplit sentence)
  let eos ← w2i voc "<EOS>"
  .ok (idxs ++ [eos])

/-- Length of the longest sequence in a batch. -/
def maxLen (l : List (List Nat)) : Nat :=
  (l.map List.length).foldl Nat.max 0

/-- `utils.zeroPadding` = `itertools.zip_longest(*l, fillvalue)`: transposes a
batch of sequences into time-major rows; row `t` holds, for every sequence,
its element at position `t` or `fillvalue` past its end, and there are as many
rows as the longest sequence is long. -/
def zeroPadding (l : List (List Nat)) (fillvalue : Nat) : List (List Nat) :=
  (List.range (maxLen l)).map (fun t => l.map (fun s => s.getD t fillvalue))

/-- `utils.binaryMatrix`: entrywise `0` where the token equals the padding
value and `1` elsewhere. -/
def binaryMatrix (l : List (List Nat)) (value : Nat) : List (List Nat) :=
  l.map (fun seq => seq.map (fun token => if token = value then 0 else 1))

/-- Python `max` over a list of naturals: raises `ValueError` on `[]`. -/
def pyMax : List Nat → Except String Nat
  | [] => .error "ValueError: max() arg is an empty sequence"
  | x :: xs => .ok (xs.foldl Nat.max x)

/-- `utils.inputVar`: index every sentence, record the per-item lengths, pad
with `0`.  (`torch.tensor`/`torch.LongTensor` wrapping is out of scope; the
tensor contents are the returned lists.) -/
def inputVar (l : List String) (voc : Vocab) :
    Except String (List (List Nat) × List Nat) := do
  let indexes_batch ← mapME (indexesFromSentence voc) l
  let lengths := indexes_batch.map List.length
  .ok (zeroPadding indexes_batch 0, lengths)

/-- `utils.outputVar`: index every sentence, take the max target length
(`max` raises on an empty batch), pad with `0`, and mask against
`voc.word2idx['<PAD>']`. -/
def outputVar (l : List String) (voc : Vocab) :
    Except String (List (List Nat) × List (List Nat) × Nat) := do
  let indexes_batch ← mapME (indexesFromSentence voc) l
  let max_target_len ← pyMax (indexes_batch.map List.length)
  let padList := zeroPadding indexes_batch 0
  let pad ← w2i voc "<PAD>"
  .ok (padList, binaryMatrix padList pad, max_target_len)

/-- Sort key of `batch2TrainData`: `len(x[0].split(" "))`, the whitespace
token count of the input sentence. -/
def inputKeyLen (p : String × String) : Nat :=
  (pySplit p.1).length

/-- Stable descending insertion: place `x` before the first element whose key
is not larger, so that among equal keys earlier elements stay first. -/
def sortDescInsert {α : Type} (key : α → Nat) (x : α) : List α → List α
  | [] => [x]
  | y :: ys => if key y ≤ key x then x :: y :: ys else y :: sortDescInsert key x ys

/-- Stable sort, descending by `key`: the unique stable descending order, which
is what CPython's stable `list.sort(key=…, reverse=True)` produces. -/
def sortDesc {α : Type} (key : α → Nat) : List α → List α
  | [] => []
  | x :: xs => sortDescInsert key x (sortDesc key xs)

/-- The five values `utils.batch2TrainData` returns. -/
structure BatchOut where
  inp : List (List Nat)
  lengths : List Nat
  outp : List (List Nat)
  mask : List (List Nat)
  max_target_len : Nat
  deriving Repr, DecidableEq

/-- `utils.batch2TrainData`.  `pair_batch.sort(...)` mutates the caller's list
in place, so the embedding returns the post-call value of `pair_batch` (first
component) alongside the computed batch (second component); the sort happens
before any lookup, so the list is reordered even when indexing later raises. -/
def batch2TrainData (voc : Vocab) (pair_batch : List (String × String)) :
    List (String × String) × Except String BatchOut :=
  let sorted_batch := sortDesc inputKeyLen pair_batch
  let input_batch := sorted_batch.map (·.1)
  let output_batch := sorted_batch.map (·.2)
  (sorted_batch, do
    let (inp, lengths) ← inputVar input_batch voc
    let (outp, mask, max_target_len) ← outputVar output_batch voc
    .ok ⟨inp, lengths, outp, mask, max_target_len⟩)

/-- The list returned by a successful `indexesFromSentence voc s` on a
vocabulary whose `word2idx` maps `<EOS>` to 2: the tokens' indices followed by
the EOS id. -/
def idxListOk (voc : Vocab) (s : String) : List Nat :=
  (pySplit s).map (fun w => (dget voc.word2idx w).getD 0) ++ [2]

/-- Vocabulary states reachable from `Vocab.__init__` by `addWord`,
`addSentence` and `trim` calls, every added word satisfying `P`. -/
inductive Reach (P : String → Prop) : Vocab → Prop
  | init (name : String) : Reach P (Vocab.init name)
  | add {v : Vocab} {w : String} : Reach P v → P w → Reach P (v.addWord w)
  | sent {v : Vocab} {s : String} : Reach P v → (∀ w ∈ pySplit s, P w) →
      Reach P (v.addSentence s)
  | trim {v : Vocab} {mc : Nat} : Reach P v → Reach P ((v.trim mc).state)

/-- Well-formedness of a `Vocab`'s maps: at least the three reserved indices
exist, every `word2idx` index is non-reserved and below `num_words`, every
`idx2word` key is below `num_words`, and on non-reserved indices the two maps
are mutually inverse. -/
def Vocab.WF (v : Vocab) : Prop :=
  3 ≤ v.num_words ∧
  (∀ w i, dget v.word2idx w = some i → 3 ≤ i ∧ i < v.num_words) ∧
  (∀ i w, dget v.idx2word i = some w → i < v.num_words) ∧
  (∀ i w, 3 ≤ i → (dget v.idx2word i = some w ↔ dget v.word2idx w = some i))

/-- The three reserved token strings. -/
def reservedTokens : List String := ["<PAD>", "<SOS>", "<EOS>"]

/-! ### `model.py`, attention scorer

Tensors are embedded as nested lists in `(seq_len, batch, hidden)` layout with
integer entries (the claims under scrutiny are shape/control-flow facts, which
do not depend on the float carrier).  `nn.Linear` parameters are passed
explicitly as a weight matrix and a bias vector. -/

/-- A rank-3 tensor of shape `(seq_len, batch, hidden)`. -/
abbrev T3 : Type := List (List (List Int))

/-- Dot product of two equal-length vectors. -/
def dotVec (a b : List Int) : Int :=
  ((a.zip b).map (fun p => p.1 * p.2)).sum

/-- `nn.Linear(W, b)` applied to one hidden vector: `W·v + b`. -/
def linearMap (W : List (List Int)) (b : List Int) (v : List Int) : List Int :=
  (W.zip b).map (fun rb => dotVec rb.1 v + rb.2)

/-- `Attn.dot_score`: `torch.sum(hidden * encoder_outs, dim=2)` with `hidden`
of shape `(1, batch, hidden)` broadcast along the timestep axis — one score
per (timestep, batch) pair. -/
def Attn.dot_score (hidden encoder_outs : T3) : List (List Int) :=
  encoder_outs.map (fun encl =>
    (encl.zip (hidden.headD [])).map (fun bv => dotVec bv.1 bv.2))

/-- `Attn.general_score`: linear-project the encoder outputs, then `dot_score`. -/
def Attn.general_score (W : List (List Int)) (b : List Int)
    (hidden encoder_outs : T3) : List (List Int) :=
  Attn.dot_score hidden (encoder_outs.map (fun encl => encl.map (linearMap W b)))

/-- `Attn.concat_score`.  The source line is

`energy = self.attn(torch.cat(hidden.expand(encoder_outs.size(0), -1, -1), encoder_outs, dim=2)).tanh()`

`torch.cat` takes the sequence of tensors as its single first argument
(`torch.cat(tensors, dim=0)`); here two tensors are passed positionally —
the tuple parentheses are missing — so `encoder_outs` lands in the `dim`
slot while `dim=2` is also given as a keyword.  CPython/PyTorch rejects this
call with a `TypeError` before any arithmetic happens, on every input. -/
def Attn.concat_score (hidden encoder_outs : T3) : Except String (List (List Int)) :=
  .error "TypeError: cat() received an invalid combination of arguments"

/-- `Attn.forward` up to its energy computation: dispatch on the scoring mode
(`dot` / `general` / anything else, which after the constructor's validation
is exactly `concat`).  The subsequent transpose-and-softmax step consumes the
energies only when scoring succeeded; in `concat` mode the `TypeError` from
`concat_score` propagates first. -/
def Attn.energy (method : String) (W : List (List Int)) (b : List Int)
    (hidden encoder_outs : T3) : Except String (List (List Int)) :=
  if method = "dot" then .ok (Attn.dot_score hidden encoder_outs)
  else if method = "general" then .ok (Attn.general_score W b hidden encoder_outs)
  else Attn.concat_score hidden encoder_outs

/-! ### `vocab.py`, string normalization

`normalizeString` is embedded over `List Char`.  The three `re.sub` calls are
embedded as direct recursions (`re.sub` replaces maximal non-overlapping
matches left to right).  The Unicode-database-dependent pieces —
`unicodedata.normalize('NFD', ·)` and `unicodedata.category(·) == 'Mn'` from
`unicodeToAscii`, and the non-ASCII part of `str.lower` — are parameters
`nfd`/`isMn` of the embedding; the facts the theorems assume about them
(ASCII code points are NFD-fixed, are not nonspacing marks, and no
decomposition of a non-uppercase character contains an uppercase ASCII
letter) are facts of the Unicode character database. -/

/-- The class `[.!?]` of `re.sub(r"([.!?])", r" \1", s)`. -/
def isPunct (c : Char) : Bool :=
  c == '.' || c == '!' || c == '?'

/-- The class `[a-zA-Z]` (code points 97–122 and 65–90). -/
def isAsciiLetter (c : Char) : Bool :=
  (decide (97 ≤ c.toNat) && decide (c.toNat ≤ 122)) ||
    (decide (65 ≤ c.toNat) && decide (c.toNat ≤ 90))

/-- The class `[a-zA-Z.!?]` kept by the second substitution. -/
def keepChar (c : Char) : Bool :=
  isAsciiLetter c || isPunct c

/-- Python's `\s` / `str.strip` whitespace on the ASCII range (non-ASCII
Unicode whitespace never reaches the places where whitespace matters, because
the second substitution has already replaced it). -/
def isWS (c : Char) : Bool :=
  c == ' ' || c == '\t' || c == '\n' || c == '\r' || c == '\x0b' || c == '\x0c'

/-- `re.sub(r"([.!?])", r" \1", s)`: a space is inserted before every
punctuation character. -/
def spacePunct : List Char → List Char
  | [] => []
  | c :: cs => if isPunct c then ' ' :: c :: spacePunct cs else c :: spacePunct cs

mutual
/-- `re.sub(r"[^a-zA-Z.!?]+", r" ", s)`: every maximal run of characters
outside `[a-zA-Z.!?]` becomes a single space. -/
def squashNonKeep : List Char → List Char
  | [] => []
  | c :: cs => if keepChar c then c :: squashNonKeep cs else ' ' :: squashNonKeepRun cs
/-- Inside a run of non-kept characters (the replacement space is already
emitted): skip until the next kept character. -/
def squashNonKeepRun : List Char → List Char
  | [] => []
  | c :: cs => if keepChar c then c :: squashNonKeep cs else squashNonKeepRun cs
end

mutual
/-- `re.sub(r"\s+", r" ", s)`: every maximal whitespace run becomes one space. -/
def squashWS : List Char → List Char
  | [] => []
  | c :: cs => if isWS c then ' ' :: squashWSRun cs else c :: squashWS cs
/-- Inside a whitespace run (the replacement space is already emitted). -/
def squashWSRun : List Char → List Char
  | [] => []
  | c :: cs => if isWS c then squashWSRun cs else c :: squashWS cs
end

/-- `str.strip()`: drop whitespace from both ends. -/
def pyStrip (l : List Char) : List Char :=
  ((l.dropWhile isWS).reverse.dropWhile isWS).reverse

/-- `str.lower()` on the ASCII range (the non-ASCII part of Python's case
mapping is subsumed by the `nfd` parameter downstream: every non-ASCII
character is removed by the second substitution regardless). -/
def asciiLower (c : Char) : Char :=
  if 65 ≤ c.toNat ∧ c.toNat ≤ 90 then Char.ofNat (c.toNat + 32) else c

/-- `vocab.unicodeToAscii`:
`''.join(c for c in unicodedata.normalize('NFD', s) if unicodedata.category(c) != 'Mn')`,
with the Unicode character database supplied as the parameters `nfd`
(per-character canonical decomposition) and `isMn` (category test). -/
def unicodeToAscii (nfd : Char → List Char) (isMn : Char → Bool) (s : List Char) : List Char :=
  (s.map nfd).flatten.filter (fun c => !isMn c)

/-- The last three lines of `vocab.normalizeString`: the two character-class
substitutions and the whitespace-collapse-plus-strip. -/
def normalizeCore (l : List Char) : List Char :=
  pyStrip (squashWS (squashNonKeep (spacePunct l)))

/-- `vocab.normalizeString`:
`s = unicodeToAscii(s.lower().strip())` followed by the three `re.sub` lines. -/
def normalizeString (nfd : Char → List Char) (isMn : Char → Bool) (s : String) : String :=
  String.mk (normalizeCore (unicodeToAscii nfd isMn (pyStrip (s.data.map asciiLower))))

/-- Characters that can occur in `normalizeString` output: lowercase ASCII
letters, the three punctuation marks, and the space. -/
def normalChar (c : Char) : Bool :=
  (decide (97 ≤ c.toNat) && decide (c.toNat ≤ 122)) || isPunct c || c == ' '

/-- No two adjacent spaces. -/
def noDoubleSpace : List Char → Bool
  | a :: b :: rest => !(a == ' ' && b == ' ') && noDoubleSpace (b :: rest)
  | _ => true

/-- Every punctuation character other than the head is directly preceded by a
space. -/
def punctSpacedTail : List Char → Bool
  | a :: b :: rest => (!isPunct b || a == ' ') && punctSpacedTail (b :: rest)
  | _ => true

/-- An uppercase ASCII letter (code points 65–90). -/
def isUpperAZ (c : Char) : Bool :=
  decide (65 ≤ c.toNat) && decide (c.toNat ≤ 90)

/-- The fixed points of `normalizeString`: strings over the normal alphabet
with no double spaces, no leading or trailing space, and every non-initial
punctuation mark preceded by a space. -/
def NormalForm (l : List Char) : Prop :=
  (∀ c ∈ l, normalChar c = true) ∧ noDoubleSpace l = true ∧ punctSpacedTail l = true ∧
    l.head? ≠ some ' ' ∧ l.getLast? ≠ some ' '

/-- The head character is a punctuation mark. -/
def headIsPunct : List Char → Bool
  | [] => false
  | c :: _ => isPunct c

/-- The head character (if any) is not a space. -/
def headNotSpace : List Char → Bool
  | [] => true
  | c :: _ => !(c == ' ')

/-- A vocabulary as `utils.load` produces it for a two-word corpus mapping
`hi` to 3 and `there` to 4 (reserved tokens re-inserted into `word2idx`). -/
def demoVoc : Vocab :=
  { name := "Cornell_Movie"
    trimmed := true
    word2idx := [("hi", 3), ("there", 4), ("<PAD>", 0), ("<SOS>", 1), ("<EOS>", 2)]
    word2cnt := [("hi", 1), ("there", 1)]
    idx2word := [(0, "<PAD>"), (1, "<SOS>"), (2, "<EOS>"), (3, "hi"), (4, "there")]
    num_words := 5 }

/-- The vocabulary with counts `a:5, b:2, c:1` from the spec's trimming
example, built by the corresponding `addWord` calls. -/
def vocabABC : Vocab :=
  ["a", "a", "a", "a", "a", "b", "b", "c"].foldl Vocab.addWord (Vocab.init "Cornell_Movie")

/-- The `keep_words` list of `Vocab.trim`: the words whose count is at least
`min_count`, in `word2cnt` insertion (= first-seen) order. -/
def trimKeeps (v : Vocab) (min_count : Nat) : List String :=
  (v.word2cnt.filter (fun kv => min_count ≤ kv.2)).map (·.1)

/-- Placement of the reserved tokens in a vocabulary's maps: absent from the
two word-keyed maps, present in `idx2word` at 0/1/2. -/
def Vocab.ReservedLayout (v : Vocab) : Prop :=
  dget v.word2idx "<PAD>" = none ∧ dget v.word2idx "<SOS>" = none ∧
    dget v.word2idx "<EOS>" = none ∧
    dget v.word2cnt "<PAD>" = none ∧ dget v.word2cnt "<SOS>" = none ∧
    dget v.word2cnt "<EOS>" = none ∧
    dget v.idx2word 0 = some "<PAD>" ∧ dget v.idx2word 1 = some "<SOS>" ∧
    dget v.idx2word 2 = some "<EOS>"

/-!
## Theorems

Supporting lemmas first (dictionaries, folds, sorting, padding, string
normalization), then one named theorem per claim with its witness or
counterexample.
-/

theorem dget_dset_self {κ ν : Type} [DecidableEq κ] (d : List (κ × ν)) (k : κ) (x : ν) :
    dget (dset d k x) k = some x := by
  induction d with
  | nil => simp [dget, dset]
  | cons kv d ih =>
    by_cases h : kv.1 = k
    · simp [dget, dset, h]
    · simp [dget, dset, h, ih]

theorem dget_dset_ne {κ ν : Type} [DecidableEq κ] (d : List (κ × ν)) (k k' : κ) (x : ν)
    (h : k ≠ k') : dget (dset d k x) k' = dget d k' := by
  induction d with
  | nil => simp [dget, dset, h]
  | cons kv d ih =>
    by_cases hk : kv.1 = k
    · subst hk
      simp [dget, dset, h]
    · by_cases hk' : kv.1 = k'
      · simp [dget, dset, hk, hk', Ne.symm h]
      · simp [dget, dset, hk, hk', ih]

theorem dset_append {κ ν : Type} [DecidableEq κ] (d : List (κ × ν)) (k : κ) (x : ν)
    (h : dget d k = none) : dset d k x = d ++ [(k, x)] := by
  induction d with
  | nil => simp [dset]
  | cons kv d ih =>
    by_cases hk : kv.1 = k
    · simp [dget, hk] at h
    · simp only [dget, hk, if_false] at h
      simp [dset, hk, ih h]

theorem dget_append_none {κ ν : Type} [DecidableEq κ] (d d' : List (κ × ν)) (k : κ)
    (h : dget d k = none) : dget (d ++ d') k = dget d' k := by
  induction d with
  | nil => simp
  | cons kv d ih =>
    by_cases hk : kv.1 = k
    · simp [dget, hk] at h
    · simp only [dget, hk, if_false] at h
      simpa [dget, hk] using ih h

theorem dget_none_of_not_mem_keys {κ ν : Type} [DecidableEq κ] (d : List (κ × ν)) (k : κ)
    (h : k ∉ d.map (·.1)) : dget d k = none := by
  induction d with
  | nil => rfl
  | cons kv d ih =>
    simp only [List.map_cons, List.mem_cons] at h
    push_neg at h
    have hne : kv.1 ≠ k := fun hk => h.1 hk.symm
    simp [dget, hne, ih h.2]

theorem mem_keys_of_dget_some {κ ν : Type} [DecidableEq κ] {d : List (κ × ν)} {k : κ} {x : ν}
    (h : dget d k = some x) : k ∈ d.map (·.1) := by
  induction d with
  | nil => simp [dget] at h
  | cons kv d ih =>
    by_cases hk : kv.1 = k
    · simp [hk]
    · simp only [dget, hk, if_false] at h
      simp [ih h]

/-- C2, counterexample: trimming a freshly constructed (hence not-yet-trimmed,
empty-`word2cnt`) vocabulary raises `ZeroDivisionError` — the retained-fraction
report `len(keep_words)/len(self.word2cnt)` is not guarded. -/
theorem trim_empty_raises_cex :
    ((Vocab.init "Cornell_Movie").trim 3).err = some "ZeroDivisionError: division by zero" := by
  decide

/-- C2, amended: on a not-yet-trimmed vocabulary with empty `word2cnt`,
`trim(min_count)` raises `ZeroDivisionError` while reporting the retained
fraction, leaving the vocabulary with only the `trimmed` flag newly set. -/
theorem trim_empty_raises (v : Vocab) (min_count : Nat)
    (ht : v.trimmed = false) (hc : v.word2cnt = []) :
    v.trim min_count = ⟨{ v with trimmed := true }, some "ZeroDivisionError: division by zero"⟩ := by
  simp [Vocab.trim, ht, hc]

/-- C2, witness for `trim_empty_raises` at a concrete vocabulary. -/
theorem trim_empty_raises_witness :
    (Vocab.init "x").trimmed = false ∧ (Vocab.init "x").word2cnt = [] ∧
      (Vocab.init "x").trim 3 =
        ⟨{ Vocab.init "x" with trimmed := true }, some "ZeroDivisionError: division by zero"⟩ :=
  ⟨by decide, by decide, trim_empty_raises (Vocab.init "x") 3 (by decide) (by decide)⟩

theorem dget_reserved_none (i : Nat) (h : 3 ≤ i) :
    dget [(0, "<PAD>"), (1, "<SOS>"), (2, "<EOS>")] i = none := by
  have h0 : (0 : Nat) ≠ i := by omega
  have h1 : (1 : Nat) ≠ i := by omega
  have h2 : (2 : Nat) ≠ i := by omega
  simp [dget, h0, h1, h2]

/-- Folding `addWord` over pairwise-distinct words that are fresh for the
vocabulary appends them to all three maps in order, with indices assigned
sequentially from `num_words`, and each count set to 1. -/
theorem foldl_addWord_fresh (ws : List String) (v : Vocab)
    (hnd : ws.Nodup)
    (hfresh1 : ∀ w ∈ ws, dget v.word2idx w = none)
    (hfresh2 : ∀ w ∈ ws, dget v.word2cnt w = none)
    (hidx : ∀ i, v.num_words ≤ i → dget v.idx2word i = none) :
    ws.foldl Vocab.addWord v =
      { v with
        word2idx := v.word2idx ++ ws.zip (List.range' v.num_words ws.length)
        word2cnt := v.word2cnt ++ ws.map (fun w => (w, 1))
        idx2word := v.idx2word ++ (List.range' v.num_words ws.length).zip ws
        num_words := v.num_words + ws.length } := by
  induction ws generalizing v with
  | nil => simp
  | cons w ws ih =>
    have hw : dget v.word2idx w = none := hfresh1 w (List.mem_cons_self _ _)
    have hwc : dget v.word2cnt w = none := hfresh2 w (List.mem_cons_self _ _)
    have hwi : dget v.idx2word v.num_words = none := hidx _ le_rfl
    have hnotmem : w ∉ ws := (List.nodup_cons.mp hnd).1
    have hstep : v.addWord w =
        { v with
          word2idx := v.word2idx ++ [(w, v.num_words)]
          word2cnt := v.word2cnt ++ [(w, 1)]
          idx2word := v.idx2word ++ [(v.num_words, w)]
          num_words := v.num_words + 1 } := by
      rw [Vocab.addWord]
      simp only [dcontains, hw, Option.isSome_none, Bool.false_eq_true, if_false]
      rw [dset_append _ _ _ hw, dset_append _ _ _ hwc, dset_append _ _ _ hwi]
    have ihv := ih (v.addWord w) (List.nodup_cons.mp hnd).2
      (by
        intro u hu
        rw [hstep]
        have hne : w ≠ u := fun he => hnotmem (he ▸ hu)
        rw [show (v.word2idx ++ [(w, v.num_words)]) = dset v.word2idx w v.num_words
          from (dset_append _ _ _ hw).symm, dget_dset_ne _ _ _ _ hne]
        exact hfresh1 u (List.mem_cons_of_mem _ hu))
      (by
        intro u hu
        rw [hstep]
        have hne : w ≠ u := fun he => hnotmem (he ▸ hu)
        rw [show (v.word2cnt ++ [(w, 1)]) = dset v.word2cnt w 1
          from (dset_append _ _ _ hwc).symm, dget_dset_ne _ _ _ _ hne]
        exact hfresh2 u (List.mem_cons_of_mem _ hu))
      (by
        intro i hi
        rw [hstep] at hi ⊢
        have hi2 : v.num_words + 1 ≤ i := hi
        have hne : v.num_words ≠ i := by omega
        rw [show (v.idx2word ++ [(v.num_words, w)]) = dset v.idx2word v.num_words w
          from (dset_append _ _ _ hwi).symm, dget_dset_ne _ _ _ _ hne]
        exact hidx i (by omega))
    rw [List.foldl_cons, ihv, hstep]
    simp only [Vocab.mk.injEq, List.length_cons]
    refine ⟨trivial, trivial, ?_, ?_, ?_, ?_⟩
    · rw [List.append_assoc]
      rfl
    · rw [List.append_assoc]
      rfl
    · rw [List.append_assoc]
      rfl
    · omega

/-- C6: `trim(min_count)` is a no-op on an already-trimmed vocabulary;
otherwise (when `word2cnt` is nonempty, so the retention report does not
raise) it rebuilds the maps keeping exactly the words whose count is at least
`min_count`, in their original first-seen order, with indices reassigned
sequentially from 3 and every kept count reset to 1. -/
theorem trim_spec (v : Vocab) (min_count : Nat)
    (hnd : (v.word2cnt.map (·.1)).Nodup) :
    (v.trimmed = true → v.trim min_count = ⟨v, none⟩) ∧
    (v.trimmed = false → v.word2cnt ≠ [] →
      v.trim min_count =
        ⟨{ name := v.name
           trimmed := true
           word2idx := (trimKeeps v min_count).zip
             (List.range' 3 (trimKeeps v min_count).length)
           word2cnt := (trimKeeps v min_count).map (fun w => (w, 1))
           idx2word := [(0, "<PAD>"), (1, "<SOS>"), (2, "<EOS>")] ++
             (List.range' 3 (trimKeeps v min_count).length).zip (trimKeeps v min_count)
           num_words := 3 + (trimKeeps v min_count).length }, none⟩) := by
  constructor
  · intro ht
    simp [Vocab.trim, ht]
  · intro ht hc
    have hlen : ¬(v.word2cnt.length = 0) := by
      simpa [List.length_eq_zero] using hc
    have hkeep : ((v.word2cnt.filter (fun kv => min_count ≤ kv.2)).map (·.1)).Nodup :=
      hnd.sublist ((List.filter_sublist v.word2cnt).map (·.1))
    rw [Vocab.trim]
    simp only [ht, Bool.false_eq_true, if_false, hlen]
    rw [foldl_addWord_fresh _ _ hkeep
      (by intro u _; rfl)
      (by intro u _; rfl)
      (by
        intro i hi
        exact dget_reserved_none i hi)]
    rfl

/-- C6, witness for `trim_spec`: the spec's example — counts `a:5, b:2, c:1`
trimmed at `min_count = 3` retain only `a`, re-added at index 3 with its count
reset to 1. -/
theorem trim_spec_witness :
    vocabABC.word2cnt = [("a", 5), ("b", 2), ("c", 1)] ∧
      vocabABC.trim 3 =
        ⟨{ name := "Cornell_Movie"
           trimmed := true
           word2idx := [("a", 3)]
           word2cnt := [("a", 1)]
           idx2word := [(0, "<PAD>"), (1, "<SOS>"), (2, "<EOS>"), (3, "a")]
           num_words := 4 }, none⟩ := by
  refine ⟨by decide, ?_⟩
  have h := (trim_spec vocabABC 3 (by decide)).2 (by decide) (by decide)
  exact h.trans (by decide)

theorem init_WF (name : String) : (Vocab.init name).WF := by
  refine ⟨le_rfl, ?_, ?_, ?_⟩
  · intro w i h
    cases h
  · intro i w h
    by_cases h3 : 3 ≤ i
    · rw [show (Vocab.init name).idx2word = [(0, "<PAD>"), (1, "<SOS>"), (2, "<EOS>")] from rfl,
        dget_reserved_none i h3] at h
      cases h
    · show i < 3
      omega
  · intro i w h3
    constructor
    · intro h
      rw [show (Vocab.init name).idx2word = [(0, "<PAD>"), (1, "<SOS>"), (2, "<EOS>")] from rfl,
        dget_reserved_none i h3] at h
      cases h
    · intro h
      cases h

theorem addWord_WF {v : Vocab} (hWF : v.WF) (w : String) : (v.addWord w).WF := by
  by_cases hc : dcontains v.word2idx w
  · simpa [Vocab.addWord, hc] using hWF
  · obtain ⟨h0, h1, h2, h3⟩ := hWF
    have hw : dget v.word2idx w = none := by
      rcases hg : dget v.word2idx w with _ | i
      · rfl
      · exact absurd (by simp [dcontains, hg]) hc
    rw [Vocab.addWord, if_neg hc]
    refine ⟨show 3 ≤ v.num_words + 1 by omega, ?_, ?_, ?_⟩
    · intro u i hu
      by_cases huw : w = u
      · subst huw
        rw [dget_dset_self] at hu
        cases hu
        exact ⟨h0, show v.num_words < v.num_words + 1 by omega⟩
      · rw [dget_dset_ne _ _ _ _ huw] at hu
        have := h1 u i hu
        exact ⟨this.1, show i < v.num_words + 1 by omega⟩
    · intro i u hu
      by_cases hni : v.num_words = i
      · show i < v.num_words + 1
        omega
      · rw [dget_dset_ne _ _ _ _ hni] at hu
        have := h2 i u hu
        show i < v.num_words + 1
        omega
    · intro i u h3i
      by_cases hni : v.num_words = i
      · subst hni
        rw [dget_dset_self]
        constructor
        · intro hu
          cases hu
          rw [dget_dset_self]
        · intro hu
          by_cases huw : w = u
          · subst huw
            rfl
          · rw [dget_dset_ne _ _ _ _ huw] at hu
            have := (h1 u _ hu).2
            omega
      · rw [dget_dset_ne _ _ _ _ hni]
        by_cases huw : w = u
        · subst huw
          rw [dget_dset_self]
          constructor
          · intro hu
            have := (h3 i w h3i).mp hu
            rw [hw] at this
            cases this
          · intro hu
            cases hu
            exact absurd rfl hni
        · rw [dget_dset_ne _ _ _ _ huw]
          exact h3 i u h3i

theorem foldl_addWord_WF {v : Vocab} (hWF : v.WF) (ws : List String) :
    (ws.foldl Vocab.addWord v).WF := by
  induction ws generalizing v with
  | nil => exact hWF
  | cons w ws ih => exact ih (addWord_WF hWF w)

theorem trim_WF {v : Vocab} (hWF : v.WF) (mc : Nat) : ((v.trim mc).state).WF := by
  rw [Vocab.trim]
  by_cases ht : v.trimmed
  · simpa [ht] using hWF
  · rw [if_neg ht]
    by_cases hl : v.word2cnt.length = 0
    · simpa [hl] using hWF
    · rw [if_neg hl]
      exact foldl_addWord_WF
        (show Vocab.WF { Vocab.init v.name with trimmed := true } from init_WF v.name) _

theorem addSentence_WF {v : Vocab} (hWF : v.WF) (s : String) : (v.addSentence s).WF :=
  foldl_addWord_WF hWF _

theorem reach_WF {P : String → Prop} {v : Vocab} (hv : Reach P v) : v.WF := by
  induction hv with
  | init name => exact init_WF name
  | add hr _ ih => exact addWord_WF ih _
  | sent hr _ ih => exact addSentence_WF ih _
  | trim hr ih => exact trim_WF ih _

/-- C5: for every vocabulary built by any sequence of `addWord` /
`addSentence` / `trim` calls and every non-reserved index `i ≥ 3`,
`idx2word[i] == w` holds exactly when `word2idx[w] == i`; the `Reach` closure
under `addWord` and `trim` is what makes each call preserve the bijection. -/
theorem vocab_bijection {v : Vocab} (hv : Reach (fun _ => True) v)
    (i : Nat) (w : String) (hi : 3 ≤ i) :
    dget v.idx2word i = some w ↔ dget v.word2idx w = some i :=
  (reach_WF hv).2.2.2 i w hi

/-- C5, witness for `vocab_bijection`: after `addWord "hi"` on a fresh
vocabulary, index 3 and the word `hi` are mutually inverse. -/
theorem vocab_bijection_witness :
    (3 : Nat) ≤ 3 ∧
      (dget ((Vocab.init "c").addWord "hi").idx2word 3 = some "hi" ↔
        dget ((Vocab.init "c").addWord "hi").word2idx "hi" = some 3) :=
  ⟨by decide, vocab_bijection (Reach.add (Reach.init "c") trivial) 3 "hi" (by decide)⟩

theorem dget_isSome_of_mem_keys {κ ν : Type} [DecidableEq κ] {d : List (κ × ν)} {k : κ}
    (h : k ∈ d.map (·.1)) : (dget d k).isSome := by
  induction d with
  | nil => simp at h
  | cons kv d ih =>
    by_cases hk : kv.1 = k
    · simp [dget, hk]
    · simp only [List.map_cons, List.mem_cons] at h
      rcases h with h | h
      · exact absurd h.symm hk
      · simpa [dget, hk] using ih h

theorem addWord_layout {v : Vocab} (hWF : v.WF) (hL : v.ReservedLayout) {w : String}
    (hw : w ∉ reservedTokens) : (v.addWord w).ReservedLayout := by
  obtain ⟨l1, l2, l3, l4, l5, l6, l7, l8, l9⟩ := hL
  have hwP : w ≠ "<PAD>" := by simp [reservedTokens] at hw; exact hw.1
  have hwS : w ≠ "<SOS>" := by simp [reservedTokens] at hw; exact hw.2.1
  have hwE : w ≠ "<EOS>" := by simp [reservedTokens] at hw; exact hw.2.2
  have hcnt : ∀ x : Nat, ∀ r : String, r ≠ w →
      dget (dset v.word2cnt w x) r = dget v.word2cnt r := by
    intro x r hr
    exact dget_dset_ne _ _ _ _ (Ne.symm hr)
  by_cases hc : dcontains v.word2idx w
  · rw [Vocab.addWord, if_pos hc]
    refine ⟨l1, l2, l3, ?_, ?_, ?_, l7, l8, l9⟩
    · show dget (dset v.word2cnt w ((dget v.word2cnt w).getD 0 + 1)) "<PAD>" = none
      rw [hcnt _ _ (Ne.symm hwP)]
      exact l4
    · show dget (dset v.word2cnt w ((dget v.word2cnt w).getD 0 + 1)) "<SOS>" = none
      rw [hcnt _ _ (Ne.symm hwS)]
      exact l5
    · show dget (dset v.word2cnt w ((dget v.word2cnt w).getD 0 + 1)) "<EOS>" = none
      rw [hcnt _ _ (Ne.symm hwE)]
      exact l6
  · rw [Vocab.addWord, if_neg hc]
    have h0 := hWF.1
    have hn0 : v.num_words ≠ 0 := by omega
    have hn1 : v.num_words ≠ 1 := by omega
    have hn2 : v.num_words ≠ 2 := by omega
    refine ⟨?_, ?_, ?_, ?_, ?_, ?_, ?_, ?_, ?_⟩
    · show dget (dset v.word2idx w v.num_words) "<PAD>" = none
      rw [dget_dset_ne _ _ _ _ hwP]
      exact l1
    · show dget (dset v.word2idx w v.num_words) "<SOS>" = none
      rw [dget_dset_ne _ _ _ _ hwS]
      exact l2
    · show dget (dset v.word2idx w v.num_words) "<EOS>" = none
      rw [dget_dset_ne _ _ _ _ hwE]
      exact l3
    · show dget (dset v.word2cnt w 1) "<PAD>" = none
      rw [dget_dset_ne _ _ _ _ hwP]
      exact l4
    · show dget (dset v.word2cnt w 1) "<SOS>" = none
      rw [dget_dset_ne _ _ _ _ hwS]
      exact l5
    · show dget (dset v.word2cnt w 1) "<EOS>" = none
      rw [dget_dset_ne _ _ _ _ hwE]
      exact l6
    · show dget (dset v.idx2word v.num_words w) 0 = some "<PAD>"
      rw [dget_dset_ne _ _ _ _ hn0]
      exact l7
    · show dget (dset v.idx2word v.num_words w) 1 = some "<SOS>"
      rw [dget_dset_ne _ _ _ _ hn1]
      exact l8
    · show dget (dset v.idx2word v.num_words w) 2 = some "<EOS>"
      rw [dget_dset_ne _ _ _ _ hn2]
      exact l9

theorem foldl_addWord_layout {v : Vocab} (hWF : v.WF) (hL : v.ReservedLayout)
    {ws : List String} (hws : ∀ w ∈ ws, w ∉ reservedTokens) :
    ((ws.foldl Vocab.addWord v).ReservedLayout) := by
  induction ws generalizing v with
  | nil => exact hL
  | cons w ws ih =>
    exact ih (addWord_WF hWF w)
      (addWord_layout hWF hL (hws w (List.mem_cons_self _ _)))
      (fun u hu => hws u (List.mem_cons_of_mem _ hu))

theorem reach_layout {v : Vocab} (hv : Reach (fun w => w ∉ reservedTokens) v) :
    v.ReservedLayout := by
  induction hv with
  | init name => exact ⟨rfl, rfl, rfl, rfl, rfl, rfl, rfl, rfl, rfl⟩
  | add hr hP ih => exact addWord_layout (reach_WF hr) ih hP
  | sent hr hP ih =>
    exact foldl_addWord_layout (reach_WF hr) ih hP
  | trim hr ih =>
    rename_i v' mc
    rw [Vocab.trim]
    by_cases ht : v'.trimmed
    · simpa [ht] using ih
    · rw [if_neg ht]
      by_cases hl : v'.word2cnt.length = 0
      · simpa [hl] using ih
      · rw [if_neg hl]
        have hinit : Vocab.ReservedLayout { Vocab.init v'.name with trimmed := true } :=
          ⟨rfl, rfl, rfl, rfl, rfl, rfl, rfl, rfl, rfl⟩
        refine foldl_addWord_layout
          (show Vocab.WF { Vocab.init v'.name with trimmed := true } from init_WF v'.name)
          hinit ?_
        intro u hu hres
        obtain ⟨l1, l2, l3, l4, l5, l6, l7, l8, l9⟩ := ih
        have hmem : u ∈ v'.word2cnt.map (·.1) := by
          have hsub := @List.filter_sublist (String × Nat) (fun kv => decide (mc ≤ kv.2))
            v'.word2cnt
          exact List.Sublist.mem hu (hsub.map (·.1))
        have : (dget v'.word2cnt u).isSome := dget_isSome_of_mem_keys hmem
        simp [reservedTokens] at hres
        rcases hres with h | h | h
        all_goals subst h
        · rw [l4] at this
          cases this
        · rw [l5] at this
          cases this
        · rw [l6] at this
          cases this

/-- C4, counterexample: the persisted form of a vocabulary built from the
sentence `hi there` (and written by `save`) does contain an `idx2word` entry
for the reserved index 0, contradicting the claimed exclusion. -/
theorem save_reserved_cex :
    dget (save ((Vocab.init "Cornell_Movie").addSentence "hi there")).idx2word 0
      = some "<PAD>" := by
  decide

/-- C4, amended: for every vocabulary built by `addWord`/`addSentence`/`trim`
from words that are not themselves reserved-token strings (as is the case for
everything the pipeline feeds through `normalizeString`), the persisted form
excludes the reserved tokens from `word2idx` and `word2cnt`, but `idx2word`
does contain the reserved entries at indices 0, 1 and 2. -/
theorem save_excludes_reserved (v : Vocab)
    (hv : Reach (fun w => w ∉ reservedTokens) v) :
    dget (save v).word2idx "<PAD>" = none ∧ dget (save v).word2idx "<SOS>" = none ∧
      dget (save v).word2idx "<EOS>" = none ∧
      dget (save v).word2cnt "<PAD>" = none ∧ dget (save v).word2cnt "<SOS>" = none ∧
      dget (save v).word2cnt "<EOS>" = none ∧
      dget (save v).idx2word 0 = some "<PAD>" ∧ dget (save v).idx2word 1 = some "<SOS>" ∧
      dget (save v).idx2word 2 = some "<EOS>" :=
  reach_layout hv

/-- C4, witness for `save_excludes_reserved` at the vocabulary built from
`addWord "hi"`. -/
theorem save_excludes_reserved_witness :
    dget (save ((Vocab.init "x").addWord "hi")).word2idx "<PAD>" = none ∧
      dget (save ((Vocab.init "x").addWord "hi")).word2idx "<SOS>" = none ∧
      dget (save ((Vocab.init "x").addWord "hi")).word2idx "<EOS>" = none ∧
      dget (save ((Vocab.init "x").addWord "hi")).word2cnt "<PAD>" = none ∧
      dget (save ((Vocab.init "x").addWord "hi")).word2cnt "<SOS>" = none ∧
      dget (save ((Vocab.init "x").addWord "hi")).word2cnt "<EOS>" = none ∧
      dget (save ((Vocab.init "x").addWord "hi")).idx2word 0 = some "<PAD>" ∧
      dget (save ((Vocab.init "x").addWord "hi")).idx2word 1 = some "<SOS>" ∧
      dget (save ((Vocab.init "x").addWord "hi")).idx2word 2 = some "<EOS>" :=
  save_excludes_reserved _ (Reach.add (Reach.init "x") (by decide))

theorem mapME_ok {α β : Type} (f : α → Except String β) (g : α → β) (l : List α)
    (h : ∀ x ∈ l, f x = .ok (g x)) : mapME f l = .ok (l.map g) := by
  induction l with
  | nil => rfl
  | cons x xs ih =>
    simp only [mapME, h x (List.mem_cons_self _ _),
      ih (fun y hy => h y (List.mem_cons_of_mem _ hy))]
    rfl

theorem mapME_err {α β : Type} {f : α → Except String β} {l : List α}
    (h : ∃ x ∈ l, ∃ e, f x = .error e) : ∃ e, mapME f l = .error e := by
  induction l with
  | nil => simp at h
  | cons x xs ih =>
    rcases h with ⟨y, hy, e, he⟩
    rcases List.mem_cons.mp hy with rfl | hmem
    · exact ⟨e, by simp only [mapME, he]; rfl⟩
    · cases hf : f x with
      | error e' => exact ⟨e', by simp only [mapME, hf]; rfl⟩
      | ok val =>
        rcases ih ⟨y, hmem, e, he⟩ with ⟨e2, he2⟩
        exact ⟨e2, by simp only [mapME, hf, he2]; rfl⟩

/-- C7: for a vocabulary whose `word2idx` carries `<EOS>` at id 2 (as every
loaded vocabulary does), `indexesFromSentence` maps each whitespace-separated
token through `word2idx` and appends the EOS id 2; it returns the index list
exactly when every token is present and raises a `KeyError` (Python's
`LookupError` subclass) when any token is absent. -/
theorem indexesFromSentence_ok (voc : Vocab) (s : String)
    (hEOS : dget voc.word2idx "<EOS>" = some 2)
    (hall : ∀ w ∈ pySplit s, (dget voc.word2idx w).isSome) :
    indexesFromSentence voc s = .ok (idxListOk voc s) := by
  have h1 : mapME (w2i voc) (pySplit s) =
      .ok ((pySplit s).map (fun w => (dget voc.word2idx w).getD 0)) := by
    apply mapME_ok
    intro w hw
    rcases hg : dget voc.word2idx w with _ | i
    · exact absurd (hg ▸ hall w hw) (by simp)
    · simp [w2i, hg]
  simp only [indexesFromSentence, h1, w2i, hEOS, idxListOk]
  rfl

theorem indexesFromSentence_err (voc : Vocab) (s : String)
    (h : ∃ w ∈ pySplit s, dget voc.word2idx w = none) :
    ∃ e, indexesFromSentence voc s = .error e := by
  rcases h with ⟨w, hw, hnone⟩
  rcases @mapME_err String Nat (w2i voc) (pySplit s)
      ⟨w, hw, "KeyError: " ++ w, by simp [w2i, hnone]⟩ with ⟨e, he⟩
  exact ⟨e, by simp only [indexesFromSentence, he]; rfl⟩

theorem indexesFromSentence_spec (voc : Vocab) (s : String)
    (hEOS : dget voc.word2idx "<EOS>" = some 2) :
    ((∀ w ∈ pySplit s, (dget voc.word2idx w).isSome) →
      indexesFromSentence voc s = .ok (idxListOk voc s)) ∧
    ((∃ w ∈ pySplit s, dget voc.word2idx w = none) →
      ∃ e, indexesFromSentence voc s = .error e) :=
  ⟨fun hall => indexesFromSentence_ok voc s hEOS hall,
    fun h => indexesFromSentence_err voc s h⟩

/-- C7, witness: on the loaded two-word vocabulary (`hi ↦ 3`, `there ↦ 4`),
`"hi there"` indexes to `[3,4,2]` and `"hi"` to `[3,2]`; an out-of-vocabulary
token raises. -/
theorem indexesFromSentence_spec_witness :
    indexesFromSentence demoVoc "hi there" = .ok [3, 4, 2] ∧
      indexesFromSentence demoVoc "hi" = .ok [3, 2] ∧
      (∃ e, indexesFromSentence demoVoc "hi bob" = .error e) := by
  refine ⟨?_, ?_, ?_⟩
  · exact ((indexesFromSentence_spec demoVoc "hi there" (by decide)).1 (by decide)).trans
      (by rfl)
  · exact ((indexesFromSentence_spec demoVoc "hi" (by decide)).1 (by decide)).trans (by rfl)
  · exact (indexesFromSentence_spec demoVoc "hi bob" (by decide)).2
      ⟨"bob", by decide, by decide⟩

theorem sortDescInsert_perm {α : Type} (key : α → Nat) (x : α) (l : List α) :
    List.Perm (sortDescInsert key x l) (x :: l) := by
  induction l with
  | nil => rfl
  | cons y ys ih =>
    rw [sortDescInsert]
    by_cases h : key y ≤ key x
    · rw [if_pos h]
    · rw [if_neg h]
      exact (ih.cons y).trans (List.Perm.swap x y ys)

theorem sortDesc_perm {α : Type} (key : α → Nat) (l : List α) :
    List.Perm (sortDesc key l) l := by
  induction l with
  | nil => rfl
  | cons x xs ih =>
    exact (sortDescInsert_perm key x (sortDesc key xs)).trans (ih.cons x)

theorem mem_sortDescInsert {α : Type} {key : α → Nat} {x z : α} {l : List α}
    (h : z ∈ sortDescInsert key x l) : z = x ∨ z ∈ l :=
  List.mem_cons.mp ((sortDescInsert_perm key x l).mem_iff.mp h)

theorem sortDescInsert_sorted {α : Type} (key : α → Nat) (x : α) {l : List α}
    (h : List.Pairwise (fun a b => key b ≤ key a) l) :
    List.Pairwise (fun a b => key b ≤ key a) (sortDescInsert key x l) := by
  induction l with
  | nil => simp [sortDescInsert]
  | cons y ys ih =>
    rw [sortDescInsert]
    rcases List.pairwise_cons.mp h with ⟨hy, hys⟩
    by_cases hxy : key y ≤ key x
    · rw [if_pos hxy]
      refine List.pairwise_cons.mpr ⟨?_, h⟩
      intro z hz
      rcases List.mem_cons.mp hz with rfl | hz'
      · exact hxy
      · exact le_trans (hy z hz') hxy
    · rw [if_neg hxy]
      refine List.pairwise_cons.mpr ⟨?_, ih hys⟩
      intro z hz
      rcases mem_sortDescInsert hz with rfl | hz'
      · omega
      · exact hy z hz'

theorem sortDesc_sorted {α : Type} (key : α → Nat) (l : List α) :
    List.Pairwise (fun a b => key b ≤ key a) (sortDesc key l) := by
  induction l with
  | nil => simp [sortDesc]
  | cons x xs ih => exact sortDescInsert_sorted key x ih

theorem sortDescInsert_filter_eq {α : Type} (key : α → Nat) (x : α) (l : List α) (n : Nat)
    (hx : key x = n) :
    (sortDescInsert key x l).filter (fun p => key p == n) =
      x :: l.filter (fun p => key p == n) := by
  induction l with
  | nil => simp [sortDescInsert, List.filter_cons, hx]
  | cons y ys ih =>
    rw [sortDescInsert]
    by_cases hxy : key y ≤ key x
    · rw [if_pos hxy, List.filter_cons, if_pos (by simpa using hx)]
    · rw [if_neg hxy]
      have hyn : ¬ key y = n := by omega
      rw [List.filter_cons, if_neg (by simpa using hyn), ih,
        List.filter_cons, if_neg (by simpa using hyn)]

theorem sortDescInsert_filter_ne {α : Type} (key : α → Nat) (x : α) (l : List α) (n : Nat)
    (hx : key x ≠ n) :
    (sortDescInsert key x l).filter (fun p => key p == n) =
      l.filter (fun p => key p == n) := by
  induction l with
  | nil => simp [sortDescInsert, List.filter_cons, hx]
  | cons y ys ih =>
    rw [sortDescInsert]
    by_cases hxy : key y ≤ key x
    · rw [if_pos hxy, List.filter_cons, if_neg (by simpa using hx)]
    · rw [if_neg hxy]
      by_cases hyn : key y = n
      · rw [List.filter_cons, if_pos (by simpa using hyn), ih,
          List.filter_cons, if_pos (by simpa using hyn)]
      · rw [List.filter_cons, if_neg (by simpa using hyn), ih,
          List.filter_cons, if_neg (by simpa using hyn)]

/-- Stability of the descending sort: for each key value, the elements with
that key appear in their original relative order. -/
theorem sortDesc_stable {α : Type} (key : α → Nat) (l : List α) (n : Nat) :
    (sortDesc key l).filter (fun p => key p == n) = l.filter (fun p => key p == n) := by
  induction l with
  | nil => rfl
  | cons x xs ih =>
    rw [sortDesc]
    by_cases hx : key x = n
    · rw [sortDescInsert_filter_eq key x _ n hx, ih,
        List.filter_cons, if_pos (by simpa using hx)]
    · rw [sortDescInsert_filter_ne key x _ n hx, ih,
        List.filter_cons, if_neg (by simpa using hx)]

/-- C10: `pair_batch.sort(key=…, reverse=True)` reorders the caller's list in
place — the post-call value of `pair_batch` (the first component of the
embedding, which threads that state) is the stable descending sort of the
original, not a copy; the vocabulary and everything else the caller sees are
read-only in `batch2TrainData`, and the reordering happens whether or not the
subsequent indexing raises. -/
theorem batch2TrainData_mutates (voc : Vocab) (pair_batch : List (String × String)) :
    (batch2TrainData voc pair_batch).1 = sortDesc inputKeyLen pair_batch ∧
      List.Perm (batch2TrainData voc pair_batch).1 pair_batch ∧
      List.Pairwise (fun a b => inputKeyLen b ≤ inputKeyLen a)
        (batch2TrainData voc pair_batch).1 ∧
      (∀ n, ((batch2TrainData voc pair_batch).1).filter (fun p => inputKeyLen p == n) =
        pair_batch.filter (fun p => inputKeyLen p == n)) :=
  ⟨rfl, sortDesc_perm _ _, sortDesc_sorted _ _, fun n => sortDesc_stable _ _ n⟩

theorem getD_map_of_lt {α β : Type} (f : α → β) (l : List α) (i : Nat) (d : β) (e : α)
    (h : i < l.length) : (l.map f).getD i d = f (l.getD i e) := by
  rw [List.getD_eq_getElem?_getD, List.getD_eq_getElem?_getD, List.getElem?_map,
    List.getElem?_eq_getElem h]
  rfl

theorem getD_range_of_lt (n t : Nat) (h : t < n) : (List.range n).getD t 0 = t := by
  rw [List.getD_eq_getElem?_getD, List.getElem?_range h]
  rfl

theorem foldl_max_init_le (l : List Nat) (a : Nat) : a ≤ l.foldl Nat.max a := by
  induction l generalizing a with
  | nil => exact le_rfl
  | cons x xs ih => exact le_trans (Nat.le_max_left a x) (ih (Nat.max a x))

theorem mem_le_foldl_max (l : List Nat) (a x : Nat) (hx : x ∈ l) : x ≤ l.foldl Nat.max a := by
  induction l generalizing a with
  | nil => cases hx
  | cons y ys ih =>
    rcases List.mem_cons.mp hx with rfl | h
    · exact le_trans (Nat.le_max_right a x) (foldl_max_init_le ys _)
    · exact ih _ h

theorem zeroPadding_length (l : List (List Nat)) (fill : Nat) :
    (zeroPadding l fill).length = maxLen l := by
  simp [zeroPadding]

theorem zeroPadding_row (l : List (List Nat)) (fill t : Nat) (ht : t < maxLen l) :
    (zeroPadding l fill).getD t [] = l.map (fun s => s.getD t fill) := by
  rw [zeroPadding, getD_map_of_lt _ _ _ _ 0 (by simpa using ht), getD_range_of_lt _ _ ht]

theorem zeroPadding_entry (l : List (List Nat)) (fill t b : Nat)
    (ht : t < maxLen l) (hb : b < l.length) :
    ((zeroPadding l fill).getD t []).getD b fill = (l.getD b []).getD t fill := by
  rw [zeroPadding_row l fill t ht, getD_map_of_lt _ _ _ _ [] hb]

theorem pyMax_eq (L : List Nat) (h : L ≠ []) : pyMax L = .ok (L.foldl Nat.max 0) := by
  cases L with
  | nil => exact absurd rfl h
  | cons x xs =>
    rw [pyMax]
    congr 1
    have hz : Nat.max 0 x = x := Nat.max_eq_right (Nat.zero_le x)
    rw [List.foldl_cons, hz]

theorem bind_ok_E {α β : Type} (a : α) (f : α → Except String β) :
    (Except.ok a : Except String α) >>= f = f a := rfl

theorem bind_err_E {α β : Type} (e : String) (f : α → Except String β) :
    (Except.error e : Except String α) >>= f = Except.error e := rfl

theorem inputVar_ok (voc : Vocab) (l : List String)
    (hEOS : dget voc.word2idx "<EOS>" = some 2)
    (hall : ∀ s ∈ l, ∀ w ∈ pySplit s, (dget voc.word2idx w).isSome) :
    inputVar l voc =
      .ok (zeroPadding (l.map (idxListOk voc)) 0, (l.map (idxListOk voc)).map List.length) := by
  have h1 : mapME (indexesFromSentence voc) l = .ok (l.map (idxListOk voc)) :=
    mapME_ok _ _ _ (fun s hs => indexesFromSentence_ok voc s hEOS (hall s hs))
  simp only [inputVar, h1]
  rfl

theorem outputVar_ok (voc : Vocab) (l : List String)
    (hEOS : dget voc.word2idx "<EOS>" = some 2)
    (hPAD : dget voc.word2idx "<PAD>" = some 0)
    (hne : l ≠ [])
    (hall : ∀ s ∈ l, ∀ w ∈ pySplit s, (dget voc.word2idx w).isSome) :
    outputVar l voc =
      .ok (zeroPadding (l.map (idxListOk voc)) 0,
        binaryMatrix (zeroPadding (l.map (idxListOk voc)) 0) 0,
        maxLen (l.map (idxListOk voc))) := by
  have h1 : mapME (indexesFromSentence voc) l = .ok (l.map (idxListOk voc)) :=
    mapME_ok _ _ _ (fun s hs => indexesFromSentence_ok voc s hEOS (hall s hs))
  have hne2 : (l.map (idxListOk voc)).map List.length ≠ [] := by
    simpa using hne
  have h2 : pyMax ((l.map (idxListOk voc)).map List.length) =
      .ok (maxLen (l.map (idxListOk voc))) :=
    pyMax_eq _ hne2
  simp only [outputVar, h1, h2, w2i, hPAD, bind_ok_E]

/-- C8: on a vocabulary carrying the reserved `<EOS> ↦ 2` and `<PAD> ↦ 0`
bindings (as every loaded vocabulary does), for every nonempty batch whose
tokens are all in the vocabulary, `batch2TrainData` sorts the pairs stably by
descending input token count and returns: per-input lengths (one per pair,
each the length of `indexesFromSentence` of the corresponding sorted input),
time-major input/target matrices right-padded with PAD id 0 to the batch
maximum (`zeroPadding [[1,2,3],[4,5]] = [[1,4],[2,5],[3,0]]`), and a mask
with `mask[t][b] = (target[t][b] != PAD)`. -/
theorem batch2TrainData_spec (voc : Vocab) (pair_batch : List (String × String))
    (hEOS : dget voc.word2idx "<EOS>" = some 2)
    (hPAD : dget voc.word2idx "<PAD>" = some 0)
    (hne : pair_batch ≠ [])
    (hall : ∀ p ∈ pair_batch, (∀ w ∈ pySplit p.1, (dget voc.word2idx w).isSome) ∧
      (∀ w ∈ pySplit p.2, (dget voc.word2idx w).isSome)) :
    (batch2TrainData voc pair_batch).2 =
      .ok ⟨zeroPadding ((sortDesc inputKeyLen pair_batch).map (fun p => idxListOk voc p.1)) 0,
        ((sortDesc inputKeyLen pair_batch).map (fun p => idxListOk voc p.1)).map List.length,
        zeroPadding ((sortDesc inputKeyLen pair_batch).map (fun p => idxListOk voc p.2)) 0,
        binaryMatrix
          (zeroPadding ((sortDesc inputKeyLen pair_batch).map (fun p => idxListOk voc p.2)) 0) 0,
        maxLen ((sortDesc inputKeyLen pair_batch).map (fun p => idxListOk voc p.2))⟩ ∧
    List.Perm (sortDesc inputKeyLen pair_batch) pair_batch ∧
    List.Pairwise (fun a b => inputKeyLen b ≤ inputKeyLen a)
      (sortDesc inputKeyLen pair_batch) ∧
    (∀ n, (sortDesc inputKeyLen pair_batch).filter (fun p => inputKeyLen p == n) =
      pair_batch.filter (fun p => inputKeyLen p == n)) ∧
    (((sortDesc inputKeyLen pair_batch).map (fun p => idxListOk voc p.1)).map
      List.length).length = pair_batch.length ∧
    (∀ i, i < (sortDesc inputKeyLen pair_batch).length →
      indexesFromSentence voc ((sortDesc inputKeyLen pair_batch).getD i ("", "")).1 =
        .ok (idxListOk voc ((sortDesc inputKeyLen pair_batch).getD i ("", "")).1) ∧
      (((sortDesc inputKeyLen pair_batch).map (fun p => idxListOk voc p.1)).map
          List.length).getD i 0 =
        (idxListOk voc ((sortDesc inputKeyLen pair_batch).getD i ("", "")).1).length) ∧
    (zeroPadding ((sortDesc inputKeyLen pair_batch).map (fun p => idxListOk voc p.1)) 0).length
      = maxLen ((sortDesc inputKeyLen pair_batch).map (fun p => idxListOk voc p.1)) ∧
    (∀ t b, t < maxLen ((sortDesc inputKeyLen pair_batch).map (fun p => idxListOk voc p.1)) →
      b < (sortDesc inputKeyLen pair_batch).length →
      ((zeroPadding ((sortDesc inputKeyLen pair_batch).map (fun p => idxListOk voc p.1))
          0).getD t []).getD b 0 =
        if t < (((sortDesc inputKeyLen pair_batch).map
            (fun p => idxListOk voc p.1)).getD b []).length then
          (((sortDesc inputKeyLen pair_batch).map
            (fun p => idxListOk voc p.1)).getD b []).getD t 0
        else 0) ∧
    (∀ t b, t < maxLen ((sortDesc inputKeyLen pair_batch).map (fun p => idxListOk voc p.2)) →
      b < (sortDesc inputKeyLen pair_batch).length →
      ((zeroPadding ((sortDesc inputKeyLen pair_batch).map (fun p => idxListOk voc p.2))
          0).getD t []).getD b 0 =
        if t < (((sortDesc inputKeyLen pair_batch).map
            (fun p => idxListOk voc p.2)).getD b []).length then
          (((sortDesc inputKeyLen pair_batch).map
            (fun p => idxListOk voc p.2)).getD b []).getD t 0
        else 0) ∧
    zeroPadding [[1, 2, 3], [4, 5]] 0 = [[1, 4], [2, 5], [3, 0]] ∧
    (∀ t b, t < maxLen ((sortDesc inputKeyLen pair_batch).map (fun p => idxListOk voc p.2)) →
      b < (sortDesc inputKeyLen pair_batch).length →
      ((binaryMatrix
          (zeroPadding ((sortDesc inputKeyLen pair_batch).map (fun p => idxListOk voc p.2)) 0)
          0).getD t []).getD b 2 =
        if ((zeroPadding ((sortDesc inputKeyLen pair_batch).map (fun p => idxListOk voc p.2))
            0).getD t []).getD b 0 = 0 then 0 else 1) := by
  have hperm := sortDesc_perm inputKeyLen pair_batch
  have hmemS : ∀ p ∈ sortDesc inputKeyLen pair_batch, p ∈ pair_batch :=
    fun p hp => hperm.mem_iff.mp hp
  have hallI : ∀ s ∈ (sortDesc inputKeyLen pair_batch).map (fun p => p.1),
      ∀ w ∈ pySplit s, (dget voc.word2idx w).isSome := by
    intro s hs
    rcases List.mem_map.mp hs with ⟨p, hp, rfl⟩
    exact (hall p (hmemS p hp)).1
  have hallO : ∀ s ∈ (sortDesc inputKeyLen pair_batch).map (fun p => p.2),
      ∀ w ∈ pySplit s, (dget voc.word2idx w).isSome := by
    intro s hs
    rcases List.mem_map.mp hs with ⟨p, hp, rfl⟩
    exact (hall p (hmemS p hp)).2
  have hSne : (sortDesc inputKeyLen pair_batch).map (fun p => p.2) ≠ [] := by
    intro hcon
    apply hne
    have h1 : (sortDesc inputKeyLen pair_batch).length = 0 := by
      simpa using congrArg List.length hcon
    have h2 := hperm.length_eq
    exact List.length_eq_zero.mp (h2 ▸ h1)
  have hIV := inputVar_ok voc ((sortDesc inputKeyLen pair_batch).map (fun p => p.1)) hEOS hallI
  have hOV := outputVar_ok voc ((sortDesc inputKeyLen pair_batch).map (fun p => p.2)) hEOS hPAD
    hSne hallO
  have hmapmap1 : ((sortDesc inputKeyLen pair_batch).map (fun p => p.1)).map (idxListOk voc) =
      (sortDesc inputKeyLen pair_batch).map (fun p => idxListOk voc p.1) := by
    rw [List.map_map]
    rfl
  have hmapmap2 : ((sortDesc inputKeyLen pair_batch).map (fun p => p.2)).map (idxListOk voc) =
      (sortDesc inputKeyLen pair_batch).map (fun p => idxListOk voc p.2) := by
    rw [List.map_map]
    rfl
  rw [hmapmap1] at hIV
  rw [hmapmap2] at hOV
  refine ⟨?_, hperm, sortDesc_sorted _ _, fun n => sortDesc_stable _ _ n, ?_, ?_, ?_, ?_, ?_,
    by decide, ?_⟩
  · simp only [batch2TrainData, hIV, hOV, bind_ok_E]
  · simp [hperm.length_eq]
  · intro i hi
    have hmem : (sortDesc inputKeyLen pair_batch).getD i ("", "") ∈
        sortDesc inputKeyLen pair_batch := by
      rw [List.getD_eq_getElem?_getD, List.getElem?_eq_getElem hi]
      exact List.getElem_mem _
    constructor
    · exact indexesFromSentence_ok voc _ hEOS ((hall _ (hmemS _ hmem)).1)
    · rw [getD_map_of_lt List.length _ _ _ [] (by simpa using hi),
        getD_map_of_lt (fun p => idxListOk voc p.1) _ _ _ ("", "") (by simpa using hi)]
  · exact zeroPadding_length _ _
  · intro t b ht hb
    rw [zeroPadding_entry _ _ _ _ ht (by simpa using hb)]
    by_cases hlt : t < (((sortDesc inputKeyLen pair_batch).map
        (fun p => idxListOk voc p.1)).getD b []).length
    · rw [if_pos hlt]
    · rw [if_neg hlt, List.getD_eq_default _ _ (by omega)]
  · intro t b ht hb
    rw [zeroPadding_entry _ _ _ _ ht (by simpa using hb)]
    by_cases hlt : t < (((sortDesc inputKeyLen pair_batch).map
        (fun p => idxListOk voc p.2)).getD b []).length
    · rw [if_pos hlt]
    · rw [if_neg hlt, List.getD_eq_default _ _ (by omega)]
  · intro t b ht hb
    have hblen : b < ((zeroPadding ((sortDesc inputKeyLen pair_batch).map
        (fun p => idxListOk voc p.2)) 0).getD t []).length := by
      rw [zeroPadding_row _ _ _ ht]
      simpa using hb
    rw [binaryMatrix, getD_map_of_lt _ _ _ _ [] (by rw [zeroPadding_length]; exact ht),
      getD_map_of_lt _ _ _ _ 0 hblen]

/-- C8, witness for `batch2TrainData_spec`: the two-pair batch
`[("hi","there hi"), ("hi there","hi")]` on the loaded vocabulary is sorted to
put `"hi there"` first and assembles to `lengths = [3,2]`, a `3×2` padded
input, padded targets and the matching mask. -/
theorem batch2TrainData_spec_witness :
    batch2TrainData demoVoc [("hi", "there hi"), ("hi there", "hi")] =
      ([("hi there", "hi"), ("hi", "there hi")],
        .ok ⟨[[3, 3], [4, 2], [2, 0]], [3, 2], [[3, 4], [2, 3], [0, 2]],
          [[1, 1], [1, 1], [0, 1]], 3⟩) := by
  have h := (batch2TrainData_spec demoVoc [("hi", "there hi"), ("hi there", "hi")]
    (by decide) (by decide) (by decide)
    (by
      intro p hp
      simp only [List.mem_cons, List.not_mem_nil, or_false] at hp
      rcases hp with rfl | rfl
      · exact ⟨by decide, by decide⟩
      · exact ⟨by decide, by decide⟩)).1
  have h2 : (batch2TrainData demoVoc [("hi", "there hi"), ("hi there", "hi")]).1 =
      [("hi there", "hi"), ("hi", "there hi")] := by decide
  have h3 : (batch2TrainData demoVoc [("hi", "there hi"), ("hi there", "hi")]).2 =
      .ok ⟨[[3, 3], [4, 2], [2, 0]], [3, 2], [[3, 4], [2, 3], [0, 2]],
        [[1, 1], [1, 1], [0, 1]], 3⟩ := by
    rw [h]
    rfl
  exact Prod.ext h2 h3

/-- C1: the `concat` attention mode never returns scores.  For every decoder
hidden state, encoder output sequence and `nn.Linear` parameters, dispatching
`Attn.forward` with method `concat` reaches `concat_score`, whose
`torch.cat(hidden.expand(...), encoder_outs, dim=2)` call — missing the tuple
parentheses around the two tensors — raises `TypeError` before any
concatenation, projection, tanh or reduction is computed. -/
theorem attn_concat_raises (W : List (List Int)) (b : List Int) (hidden encoder_outs : T3) :
    Attn.energy "concat" W b hidden encoder_outs =
      .error "TypeError: cat() received an invalid combination of arguments" := rfl

/-- C3, counterexample: on persisted data whose `word2idx` already contains
the reserved index 0 (`foo ↦ 0`), `load` does not fail — it returns a
vocabulary in which both `foo` and the re-inserted `<PAD>` map to 0. -/
theorem load_reserved_cex :
    load ⟨[("foo", 0)], [], []⟩ =
      .ok { name := "Cornell_Movie"
            trimmed := true
            word2idx := [("foo", 0), ("<PAD>", 0), ("<SOS>", 1), ("<EOS>", 2)]
            word2cnt := []
            idx2word := []
            num_words := 0 } := by
  rfl

/-- C3, amended: `load` performs no validation at all — for every persisted
entry (reserved indices present or not) it returns a vocabulary, marked
trimmed, that copies the three maps, sets `num_words = len(idx2word)`, and
unconditionally re-binds `<PAD> ↦ 0`, `<SOS> ↦ 1`, `<EOS> ↦ 2` in `word2idx`
while leaving every other word's binding as persisted. -/
theorem load_never_fails (entry : Persisted) :
    ∃ v : Vocab, load entry = .ok v ∧
      v.trimmed = true ∧
      v.word2cnt = entry.word2cnt ∧
      v.idx2word = entry.idx2word ∧
      v.num_words = entry.idx2word.length ∧
      dget v.word2idx "<PAD>" = some 0 ∧
      dget v.word2idx "<SOS>" = some 1 ∧
      dget v.word2idx "<EOS>" = some 2 ∧
      (∀ w, w ≠ "<PAD>" → w ≠ "<SOS>" → w ≠ "<EOS>" →
        dget v.word2idx w = dget entry.word2idx w) := by
  refine ⟨_, rfl, rfl, rfl, rfl, rfl, ?_, ?_, ?_, ?_⟩
  · rw [dget_dset_ne _ _ _ _ (by decide), dget_dset_ne _ _ _ _ (by decide), dget_dset_self]
  · rw [dget_dset_ne _ _ _ _ (by decide), dget_dset_self]
  · rw [dget_dset_self]
  · intro w h1 h2 h3
    rw [dget_dset_ne _ _ _ _ (Ne.symm h3), dget_dset_ne _ _ _ _ (Ne.symm h2),
      dget_dset_ne _ _ _ _ (Ne.symm h1)]

theorem punct_char_cases {c : Char} (h : isPunct c = true) : c = '.' ∨ c = '!' ∨ c = '?' := by
  simpa [isPunct, or_assoc] using h

theorem punct_not_space {c : Char} (h : isPunct c = true) : (c == ' ') = false := by
  rcases punct_char_cases h with rfl | rfl | rfl <;> decide

theorem punct_keep {c : Char} (h : isPunct c = true) : keepChar c = true := by
  simp [keepChar, h]

theorem normal_trichotomy {c : Char} (h : normalChar c = true) :
    (97 ≤ c.toNat ∧ c.toNat ≤ 122) ∨ isPunct c = true ∨ c = ' ' := by
  simpa only [normalChar, Bool.or_eq_true, Bool.and_eq_true, decide_eq_true_eq,
    beq_iff_eq, or_assoc] using h

theorem lower_keep {c : Char} (h1 : 97 ≤ c.toNat) (h2 : c.toNat ≤ 122) :
    keepChar c = true := by
  simp [keepChar, isAsciiLetter, h1, h2]

theorem lower_not_punct {c : Char} (h1 : 97 ≤ c.toNat) (h2 : c.toNat ≤ 122) :
    isPunct c = false := by
  cases hp : isPunct c
  · rfl
  · rcases punct_char_cases hp with rfl | rfl | rfl <;> exact absurd h1 (by decide)

theorem lower_not_space {c : Char} (h1 : 97 ≤ c.toNat) : (c == ' ') = false := by
  cases hb : c == ' '
  · rfl
  · have hc : c = ' ' := eq_of_beq hb
    subst hc
    exact absurd h1 (by decide)

theorem normal_asciiLower {c : Char} (h : normalChar c = true) : asciiLower c = c := by
  rcases normal_trichotomy h with ⟨h1, h2⟩ | hp | rfl
  · rw [asciiLower, if_neg]
    intro hcon
    omega
  · rcases punct_char_cases hp with rfl | rfl | rfl <;> decide
  · decide

theorem normal_ws {c : Char} (h : normalChar c = true) (hw : isWS c = true) : c = ' ' := by
  rcases normal_trichotomy h with ⟨h1, h2⟩ | hp | rfl
  · simp only [isWS, Bool.or_eq_true, beq_iff_eq, or_assoc] at hw
    rcases hw with rfl | rfl | rfl | rfl | rfl | rfl <;> exact absurd h1 (by decide)
  · rcases punct_char_cases hp with rfl | rfl | rfl <;> exact absurd hw (by decide)
  · rfl

theorem normal_not_upper {c : Char} (h : normalChar c = true) : isUpperAZ c = false := by
  rcases normal_trichotomy h with ⟨h1, h2⟩ | hp | rfl
  · have h90 : ¬(c.toNat ≤ 90) := by omega
    simp [isUpperAZ, h90]
  · rcases punct_char_cases hp with rfl | rfl | rfl <;> decide
  · decide

theorem keep_noUpper_normal {c : Char} (hk : keepChar c = true) (hu : isUpperAZ c = false) :
    normalChar c = true := by
  simp only [keepChar, Bool.or_eq_true] at hk
  rcases hk with hl | hp
  · simp only [isAsciiLetter, Bool.or_eq_true, Bool.and_eq_true, decide_eq_true_eq] at hl
    rcases hl with ⟨h1, h2⟩ | ⟨h1, h2⟩
    · simp [normalChar, h1, h2]
    · exfalso
      simp [isUpperAZ, h1, h2] at hu
  · simp [normalChar, hp]

theorem asciiLower_not_upper (c : Char) : isUpperAZ (asciiLower c) = false := by
  by_cases h : 65 ≤ c.toNat ∧ c.toNat ≤ 90
  · rw [asciiLower, if_pos h]
    have hgen : ∀ n : Nat, 97 ≤ n → n ≤ 122 → (Char.ofNat n).toNat = n := by
      intro n h1 h2
      have hv : n.isValidChar := Or.inl (by omega)
      simp [Char.ofNat, hv, Char.toNat, Char.ofNatAux, UInt32.toNat, BitVec.toNat_ofNatLt]
    have hval : (Char.ofNat (c.toNat + 32)).toNat = c.toNat + 32 :=
      hgen (c.toNat + 32) (by omega) (by omega)
    have h90 : ¬((Char.ofNat (c.toNat + 32)).toNat ≤ 90) := by omega
    simp [isUpperAZ, h90]
  · rw [asciiLower, if_neg h]
    simp only [isUpperAZ, Bool.and_eq_false_iff, decide_eq_false_iff_not]
    omega

theorem noDoubleSpace_cons (a : Char) (l : List Char) :
    noDoubleSpace (a :: l) = ((!(a == ' ') || headNotSpace l) && noDoubleSpace l) := by
  cases l with
  | nil => simp [noDoubleSpace, headNotSpace]
  | cons b bs => simp [noDoubleSpace, headNotSpace, Bool.not_and]

theorem punctSpacedTail_cons (a : Char) (l : List Char) :
    punctSpacedTail (a :: l) = ((!headIsPunct l || a == ' ') && punctSpacedTail l) := by
  cases l with
  | nil => simp [punctSpacedTail, headIsPunct]
  | cons b bs => simp [punctSpacedTail, headIsPunct]

theorem keep_not_space {c : Char} (hk : keepChar c = true) : (c == ' ') = false := by
  cases hb : c == ' '
  · rfl
  · have hc : c = ' ' := eq_of_beq hb
    subst hc
    exact absurd hk (by decide)

theorem spacePunct_mem {l : List Char} {c : Char} (h : c ∈ spacePunct l) : c ∈ l ∨ c = ' ' := by
  induction l with
  | nil => simp [spacePunct] at h
  | cons a as ih =>
    rw [spacePunct] at h
    cases ha : isPunct a <;> rw [ha] at h
    · simp only [Bool.false_eq_true, if_false] at h
      rcases List.mem_cons.mp h with rfl | h2
      · exact Or.inl (List.mem_cons_self _ _)
      · rcases ih h2 with h4 | h4
        · exact Or.inl (List.mem_cons_of_mem _ h4)
        · exact Or.inr h4
    · simp only [if_true] at h
      rcases List.mem_cons.mp h with rfl | h2
      · exact Or.inr rfl
      · rcases List.mem_cons.mp h2 with rfl | h3
        · exact Or.inl (List.mem_cons_self _ _)
        · rcases ih h3 with h4 | h4
          · exact Or.inl (List.mem_cons_of_mem _ h4)
          · exact Or.inr h4

theorem spacePunct_head (l : List Char) : headIsPunct (spacePunct l) = false := by
  cases l with
  | nil => rfl
  | cons a as =>
    rw [spacePunct]
    cases ha : isPunct a
    · simp only [Bool.false_eq_true, if_false]
      simpa [headIsPunct] using ha
    · simp only [if_true]
      rfl

theorem spacePunct_punctSpaced (l : List Char) : punctSpacedTail (spacePunct l) = true := by
  induction l with
  | nil => rfl
  | cons a as ih =>
    rw [spacePunct]
    cases ha : isPunct a
    · simp only [Bool.false_eq_true, if_false]
      rw [punctSpacedTail_cons, spacePunct_head, ih]
      simp
    · simp only [if_true]
      rw [punctSpacedTail_cons]
      have h2 : punctSpacedTail (a :: spacePunct as) = true := by
        rw [punctSpacedTail_cons, spacePunct_head, ih]
        simp
      rw [h2]
      simp [headIsPunct, ha]

theorem squashNonKeep_mem (l : List Char) :
    (∀ c ∈ squashNonKeep l, (keepChar c = true ∧ c ∈ l) ∨ c = ' ') ∧
      (∀ c ∈ squashNonKeepRun l, (keepChar c = true ∧ c ∈ l) ∨ c = ' ') := by
  induction l with
  | nil =>
    constructor <;> intro c hc <;> simp [squashNonKeep, squashNonKeepRun] at hc
  | cons a as ih =>
    constructor
    · intro c hc
      rw [squashNonKeep] at hc
      cases ha : keepChar a <;> rw [ha] at hc
      · simp only [Bool.false_eq_true, if_false] at hc
        rcases List.mem_cons.mp hc with rfl | h2
        · exact Or.inr rfl
        · rcases ih.2 c h2 with ⟨hk, hm⟩ | hsp
          · exact Or.inl ⟨hk, List.mem_cons_of_mem _ hm⟩
          · exact Or.inr hsp
      · simp only [if_true] at hc
        rcases List.mem_cons.mp hc with rfl | h2
        · exact Or.inl ⟨ha, List.mem_cons_self _ _⟩
        · rcases ih.1 c h2 with ⟨hk, hm⟩ | hsp
          · exact Or.inl ⟨hk, List.mem_cons_of_mem _ hm⟩
          · exact Or.inr hsp
    · intro c hc
      rw [squashNonKeepRun] at hc
      cases ha : keepChar a <;> rw [ha] at hc
      · simp only [Bool.false_eq_true, if_false] at hc
        rcases ih.2 c hc with ⟨hk, hm⟩ | hsp
        · exact Or.inl ⟨hk, List.mem_cons_of_mem _ hm⟩
        · exact Or.inr hsp
      · simp only [if_true] at hc
        rcases List.mem_cons.mp hc with rfl | h2
        · exact Or.inl ⟨ha, List.mem_cons_self _ _⟩
        · rcases ih.1 c h2 with ⟨hk, hm⟩ | hsp
          · exact Or.inl ⟨hk, List.mem_cons_of_mem _ hm⟩
          · exact Or.inr hsp

theorem squashNonKeep_noDouble (l : List Char) :
    noDoubleSpace (squashNonKeep l) = true ∧
      (noDoubleSpace (squashNonKeepRun l) = true ∧
        headNotSpace (squashNonKeepRun l) = true) := by
  induction l with
  | nil => exact ⟨rfl, rfl, rfl⟩
  | cons a as ih =>
    obtain ⟨ih1, ih2, ih3⟩ := ih
    constructor
    · rw [squashNonKeep]
      cases ha : keepChar a
      · simp only [Bool.false_eq_true, if_false]
        rw [noDoubleSpace_cons, ih2, ih3]
        simp
      · simp only [if_true]
        rw [noDoubleSpace_cons, ih1, keep_not_space ha]
        simp
    · rw [squashNonKeepRun]
      cases ha : keepChar a
      · simp only [Bool.false_eq_true, if_false]
        exact ⟨ih2, ih3⟩
      · simp only [if_true]
        constructor
        · rw [noDoubleSpace_cons, ih1, keep_not_space ha]
          simp
        · simp [headNotSpace, keep_not_space ha]

theorem squashNonKeep_punct (l : List Char) :
    (headIsPunct l = false → punctSpacedTail l = true →
      headIsPunct (squashNonKeep l) = false ∧ punctSpacedTail (squashNonKeep l) = true) ∧
      (punctSpacedTail l = true → punctSpacedTail (squashNonKeepRun l) = true) := by
  induction l with
  | nil => exact ⟨fun _ _ => ⟨rfl, rfl⟩, fun _ => rfl⟩
  | cons a as ih =>
    obtain ⟨ih1, ih2⟩ := ih
    constructor
    · intro hh hp
      have hpa : isPunct a = false := hh
      rw [punctSpacedTail_cons, Bool.and_eq_true] at hp
      obtain ⟨hp1, hp2⟩ := hp
      rw [squashNonKeep]
      cases ha : keepChar a
      · simp only [Bool.false_eq_true, if_false]
        refine ⟨rfl, ?_⟩
        rw [punctSpacedTail_cons, ih2 hp2]
        simp
      · simp only [if_true]
        have hh_as : headIsPunct as = false := by
          cases hhead : headIsPunct as
          · rfl
          · rw [hhead] at hp1
            simp only [Bool.not_true, Bool.false_or] at hp1
            rw [keep_not_space ha] at hp1
            cases hp1
        obtain ⟨q1, q2⟩ := ih1 hh_as hp2
        refine ⟨?_, ?_⟩
        · simpa [headIsPunct] using hpa
        · rw [punctSpacedTail_cons, q1, q2]
          simp
    · intro hp
      rw [punctSpacedTail_cons, Bool.and_eq_true] at hp
      obtain ⟨hp1, hp2⟩ := hp
      rw [squashNonKeepRun]
      cases ha : keepChar a
      · simp only [Bool.false_eq_true, if_false]
        exact ih2 hp2
      · simp only [if_true]
        have hh_as : headIsPunct as = false := by
          cases hhead : headIsPunct as
          · rfl
          · rw [hhead] at hp1
            simp only [Bool.not_true, Bool.false_or] at hp1
            rw [keep_not_space ha] at hp1
            cases hp1
        obtain ⟨q1, q2⟩ := ih1 hh_as hp2
        rw [punctSpacedTail_cons, q1, q2]
        simp

theorem squashWS_id (l : List Char) :
    ((∀ c ∈ l, isWS c = true → c = ' ') → noDoubleSpace l = true → squashWS l = l) ∧
      ((∀ c ∈ l, isWS c = true → c = ' ') → noDoubleSpace l = true →
        headNotSpace l = true → squashWSRun l = l) := by
  induction l with
  | nil => exact ⟨fun _ _ => rfl, fun _ _ _ => rfl⟩
  | cons a as ih =>
    obtain ⟨ih1, ih2⟩ := ih
    constructor
    · intro hws hnd
      rw [noDoubleSpace_cons, Bool.and_eq_true] at hnd
      obtain ⟨h1, h2⟩ := hnd
      rw [squashWS]
      cases ha : isWS a
      · simp only [Bool.false_eq_true, if_false]
        rw [ih1 (fun c hc => hws c (List.mem_cons_of_mem _ hc)) h2]
      · simp only [if_true]
        have ha' : a = ' ' := hws a (List.mem_cons_self _ _) ha
        subst ha'
        have hns : headNotSpace as = true := by
          rw [show ((' ' == ' ') : Bool) = true from rfl] at h1
          simpa using h1
        rw [ih2 (fun c hc => hws c (List.mem_cons_of_mem _ hc)) h2 hns]
    · intro hws hnd hhead
      rw [squashWSRun]
      cases ha : isWS a
      · simp only [Bool.false_eq_true, if_false]
        rw [noDoubleSpace_cons, Bool.and_eq_true] at hnd
        obtain ⟨h1, h2⟩ := hnd
        rw [ih1 (fun c hc => hws c (List.mem_cons_of_mem _ hc)) h2]
      · have ha' : a = ' ' := hws a (List.mem_cons_self _ _) ha
        subst ha'
        simp [headNotSpace] at hhead

theorem noDouble_suffix {a : Char} {l : List Char} (h : noDoubleSpace (a :: l) = true) :
    noDoubleSpace l = true := by
  rw [noDoubleSpace_cons, Bool.and_eq_true] at h
  exact h.2

theorem ps_suffix {a : Char} {l : List Char} (h : punctSpacedTail (a :: l) = true) :
    punctSpacedTail l = true := by
  rw [punctSpacedTail_cons, Bool.and_eq_true] at h
  exact h.2

theorem noDouble_dropWhile (p : Char → Bool) (l : List Char)
    (h : noDoubleSpace l = true) : noDoubleSpace (l.dropWhile p) = true := by
  induction l with
  | nil => exact h
  | cons a as ih =>
    rw [List.dropWhile_cons]
    by_cases hp : p a
    · rw [if_pos hp]
      exact ih (noDouble_suffix h)
    · rw [if_neg hp]
      exact h

theorem ps_dropWhile (p : Char → Bool) (l : List Char)
    (h : punctSpacedTail l = true) : punctSpacedTail (l.dropWhile p) = true := by
  induction l with
  | nil => exact h
  | cons a as ih =>
    rw [List.dropWhile_cons]
    by_cases hp : p a
    · rw [if_pos hp]
      exact ih (ps_suffix h)
    · rw [if_neg hp]
      exact h

theorem noDouble_append_left {l m : List Char} (h : noDoubleSpace (l ++ m) = true) :
    noDoubleSpace l = true := by
  induction l with
  | nil => rfl
  | cons a l' ih =>
    cases l' with
    | nil => rfl
    | cons b l'' =>
      rw [List.cons_append, noDoubleSpace_cons, Bool.and_eq_true] at h
      rw [noDoubleSpace_cons, Bool.and_eq_true]
      exact ⟨h.1, ih h.2⟩

theorem ps_append_left {l m : List Char} (h : punctSpacedTail (l ++ m) = true) :
    punctSpacedTail l = true := by
  induction l with
  | nil => rfl
  | cons a l' ih =>
    cases l' with
    | nil => rfl
    | cons b l'' =>
      rw [List.cons_append, punctSpacedTail_cons, Bool.and_eq_true] at h
      rw [punctSpacedTail_cons, Bool.and_eq_true]
      exact ⟨h.1, ih h.2⟩

theorem dropWhile_head_false (p : Char → Bool) (l : List Char) :
    ∀ c, (l.dropWhile p).head? = some c → p c = false := by
  induction l with
  | nil => intro c hc; cases hc
  | cons a as ih =>
    intro c hc
    rw [List.dropWhile_cons] at hc
    by_cases hp : p a
    · rw [if_pos hp] at hc
      exact ih c hc
    · rw [if_neg hp] at hc
      cases hc
      simpa using hp

theorem head?_some_mem {l : List Char} {c : Char} (h : l.head? = some c) : c ∈ l := by
  cases l with
  | nil => cases h
  | cons a as =>
    cases h
    exact List.mem_cons_self _ _

theorem head?_append_some {p rest : List Char} {c : Char} (h : p.head? = some c) :
    (p ++ rest).head? = some c := by
  cases p with
  | nil => cases h
  | cons a as => exact h

/-- `l` splits as its right-stripped part followed by stripped whitespace. -/
theorem stripR_decomp (x : List Char) :
    x = (x.reverse.dropWhile isWS).reverse ++ (x.reverse.takeWhile isWS).reverse :=
  calc x = x.reverse.reverse := (List.reverse_reverse x).symm
    _ = (x.reverse.takeWhile isWS ++ x.reverse.dropWhile isWS).reverse := by
        rw [List.takeWhile_append_dropWhile isWS x.reverse]
    _ = (x.reverse.dropWhile isWS).reverse ++ (x.reverse.takeWhile isWS).reverse :=
        List.reverse_append _ _

theorem pyStrip_mem (l : List Char) : ∀ c ∈ pyStrip l, c ∈ l := by
  intro c hc
  rw [pyStrip] at hc
  have h1 : c ∈ l.dropWhile isWS := by
    have := stripR_decomp (l.dropWhile isWS)
    rw [this]
    exact List.mem_append_left _ hc
  exact List.Sublist.mem h1 (List.dropWhile_sublist _)

theorem pyStrip_noDouble (l : List Char) (h : noDoubleSpace l = true) :
    noDoubleSpace (pyStrip l) = true := by
  rw [pyStrip]
  have h1 : noDoubleSpace (l.dropWhile isWS) = true := noDouble_dropWhile _ _ h
  rw [stripR_decomp (l.dropWhile isWS)] at h1
  exact noDouble_append_left h1

theorem pyStrip_ps (l : List Char) (h : punctSpacedTail l = true) :
    punctSpacedTail (pyStrip l) = true := by
  rw [pyStrip]
  have h1 : punctSpacedTail (l.dropWhile isWS) = true := ps_dropWhile _ _ h
  rw [stripR_decomp (l.dropWhile isWS)] at h1
  exact ps_append_left h1

theorem pyStrip_head_not_ws (l : List Char) :
    ∀ c, (pyStrip l).head? = some c → isWS c = false := by
  intro c hc
  rw [pyStrip] at hc
  have h1 : (l.dropWhile isWS).head? = some c := by
    rw [stripR_decomp (l.dropWhile isWS)]
    exact head?_append_some hc
  exact dropWhile_head_false _ _ c h1

theorem pyStrip_last_not_ws (l : List Char) :
    ∀ c, (pyStrip l).getLast? = some c → isWS c = false := by
  intro c hc
  rw [pyStrip, List.getLast?_reverse _] at hc
  exact dropWhile_head_false _ _ c hc

theorem dropWhile_eq_self_of_head (p : Char → Bool) (l : List Char)
    (h : ∀ c, l.head? = some c → p c = false) : l.dropWhile p = l := by
  cases l with
  | nil => rfl
  | cons a as =>
    rw [List.dropWhile_cons, if_neg]
    simp [h a rfl]

theorem pyStrip_eq_self (l : List Char)
    (hh : ∀ c, l.head? = some c → isWS c = false)
    (hl : ∀ c, l.getLast? = some c → isWS c = false) : pyStrip l = l := by
  rw [pyStrip, dropWhile_eq_self_of_head _ _ hh,
    dropWhile_eq_self_of_head _ _ (by
      intro c hc
      rw [List.head?_reverse _] at hc
      exact hl c hc),
    List.reverse_reverse]

theorem punct_not_ws {c : Char} (h : isPunct c = true) : isWS c = false := by
  rcases punct_char_cases h with rfl | rfl | rfl <;> rfl

/-- The key composition fact: on a normal-form-ish list (normal characters, no
double spaces, every non-initial punctuation mark space-preceded), inserting a
space before every punctuation mark and then collapsing non-kept runs gives
the list back — except for one leading space when the list starts with a
punctuation mark. -/
theorem squash_spacePunct_aux :
    ∀ (n : Nat) (t : List Char), t.length ≤ n →
      (∀ c ∈ t, normalChar c = true) → noDoubleSpace t = true →
      punctSpacedTail t = true →
      squashNonKeep (spacePunct t) =
        (if headIsPunct t = true then ' ' :: t else t) := by
  intro n
  induction n with
  | zero =>
    intro t ht _ _ _
    have : t = [] := List.length_eq_zero.mp (Nat.le_zero.mp ht)
    subst this
    rfl
  | succ n ihn =>
    intro t ht hchars hnd hps
    cases t with
    | nil => rfl
    | cons c cs =>
      have hccs : normalChar c = true := hchars c (List.mem_cons_self _ _)
      have hlen : cs.length ≤ n := by
        simpa using ht
      rw [punctSpacedTail_cons, Bool.and_eq_true] at hps
      obtain ⟨hp1, hp2⟩ := hps
      rcases normal_trichotomy hccs with ⟨h97, h122⟩ | hpunct | rfl
      · -- lowercase letter head
        have hknp : isPunct c = false := lower_not_punct h97 h122
        have hsp : spacePunct (c :: cs) = c :: spacePunct cs := by
          rw [spacePunct, hknp]
          simp
        have hkeep : keepChar c = true := lower_keep h97 h122
        rw [hsp, squashNonKeep, hkeep]
        simp only [if_true]
        have hhip : headIsPunct cs = false := by
          cases hhead : headIsPunct cs
          · rfl
          · rw [hhead, lower_not_space h97] at hp1
            cases hp1
        rw [ihn cs hlen (fun x hx => hchars x (List.mem_cons_of_mem _ hx))
          (noDouble_suffix hnd) hp2, hhip]
        simp [headIsPunct, hknp]
      · -- punctuation head
        have hsp : spacePunct (c :: cs) = ' ' :: c :: spacePunct cs := by
          rw [spacePunct, hpunct]
          simp
        rw [hsp, squashNonKeep]
        simp only [show keepChar ' ' = false from rfl, Bool.false_eq_true, if_false]
        rw [squashNonKeepRun, punct_keep hpunct]
        simp only [if_true]
        have hhip : headIsPunct cs = false := by
          cases hhead : headIsPunct cs
          · rfl
          · rw [hhead, punct_not_space hpunct] at hp1
            cases hp1
        rw [ihn cs hlen (fun x hx => hchars x (List.mem_cons_of_mem _ hx))
          (noDouble_suffix hnd) hp2, hhip]
        simp [headIsPunct, hpunct]
      · -- space head
        have hsp : spacePunct (' ' :: cs) = ' ' :: spacePunct cs := by
          rw [spacePunct]
          simp [show isPunct ' ' = false from rfl]
        rw [hsp, squashNonKeep]
        simp only [show keepChar ' ' = false from rfl, Bool.false_eq_true, if_false]
        rw [noDoubleSpace_cons, Bool.and_eq_true] at hnd
        obtain ⟨hn1, hn2⟩ := hnd
        cases cs with
        | nil => rfl
        | cons d ds =>
          have hdns : (d == ' ') = false := by
            simpa [headNotSpace] using hn1
          have hd : normalChar d = true := hchars d (by simp)
          have hdlen : ds.length ≤ n := by
            have h2 : ds.length + 2 ≤ n + 1 := by simpa using ht
            omega
          rw [punctSpacedTail_cons, Bool.and_eq_true] at hp2
          obtain ⟨hq1, hq2⟩ := hp2
          have hdchars : ∀ x ∈ ds, normalChar x = true :=
            fun x hx => hchars x (by simp [hx])
          have hdnd : noDoubleSpace ds = true := noDouble_suffix hn2
          rcases normal_trichotomy hd with ⟨h97, h122⟩ | hpunct | rfl
          · -- d is a letter
            have hdnp : isPunct d = false := lower_not_punct h97 h122
            have hsd : spacePunct (d :: ds) = d :: spacePunct ds := by
              rw [spacePunct, hdnp]
              simp
            rw [hsd, squashNonKeepRun, lower_keep h97 h122]
            simp only [if_true]
            have hhip : headIsPunct ds = false := by
              cases hhead : headIsPunct ds
              · rfl
              · rw [hhead, lower_not_space h97] at hq1
                cases hq1
            rw [ihn ds hdlen hdchars hdnd hq2, hhip]
            rfl
          · -- d is punctuation
            have hsd : spacePunct (d :: ds) = ' ' :: d :: spacePunct ds := by
              rw [spacePunct, hpunct]
              simp
            rw [hsd, squashNonKeepRun]
            simp only [show keepChar ' ' = false from rfl, Bool.false_eq_true, if_false]
            rw [squashNonKeepRun, punct_keep hpunct]
            simp only [if_true]
            have hhip : headIsPunct ds = false := by
              cases hhead : headIsPunct ds
              · rfl
              · rw [hhead, punct_not_space hpunct] at hq1
                cases hq1
            rw [ihn ds hdlen hdchars hdnd hq2, hhip]
            rfl
          · -- d is a space: contradicts no-double-space
            simp at hdns

theorem normal_head_not_ws (t : List Char) (hchars : ∀ c ∈ t, normalChar c = true)
    (hhead : t.head? ≠ some ' ') : ∀ c, t.head? = some c → isWS c = false := by
  intro c hc
  cases hw : isWS c
  · rfl
  · have hsp := normal_ws (hchars c (head?_some_mem hc)) hw
    subst hsp
    exact absurd hc hhead

theorem normal_last_not_ws (t : List Char) (hchars : ∀ c ∈ t, normalChar c = true)
    (hlast : t.getLast? ≠ some ' ') : ∀ c, t.getLast? = some c → isWS c = false := by
  intro c hc
  cases hw : isWS c
  · rfl
  · have hcm : c ∈ t := by
      have h2 : t.reverse.head? = some c := by
        rw [List.head?_reverse _]
        exact hc
      exact List.mem_reverse.mp (head?_some_mem h2)
    have hsp := normal_ws (hchars c hcm) hw
    subst hsp
    exact absurd hc hlast

/-- A normal-form list is a fixed point of the three-substitution pipeline. -/
theorem normalizeCore_fixed (t : List Char) (hNF : NormalForm t) : normalizeCore t = t := by
  obtain ⟨hchars, hnd, hps, hhead, hlast⟩ := hNF
  have hsq := squash_spacePunct_aux t.length t le_rfl hchars hnd hps
  rw [normalizeCore, hsq]
  have hws_chars : ∀ c ∈ t, isWS c = true → c = ' ' :=
    fun c hc hw => normal_ws (hchars c hc) hw
  have hh_nws := normal_head_not_ws t hchars hhead
  have hl_nws := normal_last_not_ws t hchars hlast
  by_cases hhp : headIsPunct t = true
  · rw [if_pos hhp]
    have hnd2 : noDoubleSpace (' ' :: t) = true := by
      rw [noDoubleSpace_cons, Bool.and_eq_true]
      refine ⟨?_, hnd⟩
      cases t with
      | nil => exact absurd hhp (by decide)
      | cons a as =>
        have hpa : isPunct a = true := hhp
        simp [headNotSpace, punct_not_space hpa]
    have hws2 : ∀ c ∈ ' ' :: t, isWS c = true → c = ' ' := by
      intro c hc hw
      rcases List.mem_cons.mp hc with rfl | hc2
      · rfl
      · exact hws_chars c hc2 hw
    rw [(squashWS_id (' ' :: t)).1 hws2 hnd2, pyStrip]
    have hd : (' ' :: t).dropWhile isWS = t := by
      rw [List.dropWhile_cons, if_pos (show isWS ' ' = true from rfl)]
      exact dropWhile_eq_self_of_head _ _ hh_nws
    rw [hd, dropWhile_eq_self_of_head _ _ (by
      intro c hc
      rw [List.head?_reverse _] at hc
      exact hl_nws c hc), List.reverse_reverse]
  · rw [if_neg hhp]
    rw [(squashWS_id t).1 hws_chars hnd]
    exact pyStrip_eq_self t hh_nws hl_nws

/-- The output of the three-substitution pipeline on any input without
uppercase ASCII letters is in normal form. -/
theorem normalizeCore_NF (u : List Char) (hu : ∀ c ∈ u, isUpperAZ c = false) :
    NormalForm (normalizeCore u) := by
  have hwchars : ∀ c ∈ squashNonKeep (spacePunct u), normalChar c = true := by
    intro c hc
    rcases (squashNonKeep_mem (spacePunct u)).1 c hc with ⟨hk, hm⟩ | rfl
    · rcases spacePunct_mem hm with hm2 | rfl
      · exact keep_noUpper_normal hk (hu c hm2)
      · exact absurd hk (by decide)
    · decide
  have hwnd := (squashNonKeep_noDouble (spacePunct u)).1
  have hq := (squashNonKeep_punct (spacePunct u)).1 (spacePunct_head u)
    (spacePunct_punctSpaced u)
  have hws_id : squashWS (squashNonKeep (spacePunct u)) = squashNonKeep (spacePunct u) :=
    (squashWS_id _).1 (fun c hc hw => normal_ws (hwchars c hc) hw) hwnd
  rw [normalizeCore, hws_id]
  refine ⟨?_, pyStrip_noDouble _ hwnd, pyStrip_ps _ hq.2, ?_, ?_⟩
  · intro c hc
    exact hwchars c (pyStrip_mem _ c hc)
  · intro hcon
    exact absurd (pyStrip_head_not_ws _ ' ' hcon) (by decide)
  · intro hcon
    exact absurd (pyStrip_last_not_ws _ ' ' hcon) (by decide)

theorem flatten_singletons (t : List Char) : (t.map (fun c => [c])).flatten = t := by
  induction t with
  | nil => rfl
  | cons a as ih => simp [ih]

theorem unicodeToAscii_fixed (nfd : Char → List Char) (isMn : Char → Bool)
    (hfix : ∀ c, normalChar c = true → nfd c = [c] ∧ isMn c = false)
    (t : List Char) (ht : ∀ c ∈ t, normalChar c = true) :
    unicodeToAscii nfd isMn t = t := by
  rw [unicodeToAscii]
  have hmap : t.map nfd = t.map (fun c => [c]) :=
    List.map_congr_left (fun c hc => (hfix c (ht c hc)).1)
  rw [hmap, flatten_singletons]
  apply List.filter_eq_self.mpr
  intro c hc
  simp [(hfix c (ht c hc)).2]

theorem map_asciiLower_fixed (t : List Char) (ht : ∀ c ∈ t, normalChar c = true) :
    t.map asciiLower = t := by
  have : t.map asciiLower = t.map id :=
    List.map_congr_left (fun c hc => normal_asciiLower (ht c hc))
  rw [this, List.map_id]

theorem pre_noUpper (nfd : Char → List Char) (isMn : Char → Bool)
    (hnoup : ∀ c c', isUpperAZ c = false → c' ∈ nfd c → isUpperAZ c' = false)
    (s : List Char) :
    ∀ c ∈ unicodeToAscii nfd isMn (pyStrip (s.map asciiLower)), isUpperAZ c = false := by
  intro c hc
  rw [unicodeToAscii] at hc
  have hc2 := List.mem_of_mem_filter hc
  rcases List.mem_flatten.mp hc2 with ⟨lc, hlc, hcin⟩
  rcases List.mem_map.mp hlc with ⟨c0, hc0, rfl⟩
  have hc0m : c0 ∈ s.map asciiLower := pyStrip_mem _ c0 hc0
  rcases List.mem_map.mp hc0m with ⟨c1, _, rfl⟩
  exact hnoup _ _ (asciiLower_not_upper c1) hcin

/-- C9: `normalizeString` is idempotent.  The hypotheses are the two facts
about the Unicode character database that the claim rests on: normal-form
characters (lowercase ASCII, `.!?`, space) are NFD-fixed points and not
nonspacing marks, and no canonical decomposition of a non-uppercase character
contains an uppercase ASCII letter.  Under them,
`normalizeString(normalizeString(s)) == normalizeString(s)` for every string
`s`. -/
theorem normalizeString_idempotent (nfd : Char → List Char) (isMn : Char → Bool)
    (hfix : ∀ c, normalChar c = true → nfd c = [c] ∧ isMn c = false)
    (hnoup : ∀ c c', isUpperAZ c = false → c' ∈ nfd c → isUpperAZ c' = false)
    (s : String) :
    normalizeString nfd isMn (normalizeString nfd isMn s) = normalizeString nfd isMn s := by
  rw [normalizeString, normalizeString]
  apply congrArg String.mk
  obtain ⟨hchars, hnd, hps, hh, hl⟩ :=
    normalizeCore_NF (unicodeToAscii nfd isMn (pyStrip (s.data.map asciiLower)))
      (pre_noUpper nfd isMn hnoup s.data)
  rw [show (String.mk (normalizeCore
      (unicodeToAscii nfd isMn (pyStrip (s.data.map asciiLower))))).data =
      normalizeCore (unicodeToAscii nfd isMn (pyStrip (s.data.map asciiLower))) from rfl]
  rw [map_asciiLower_fixed _ hchars,
    pyStrip_eq_self _ (normal_head_not_ws _ hchars hh) (normal_last_not_ws _ hchars hl),
    unicodeToAscii_fixed nfd isMn hfix _ hchars]
  exact normalizeCore_fixed _ ⟨hchars, hnd, hps, hh, hl⟩

/-- C9, witness for `normalizeString_idempotent`: the identity `nfd` with no
nonspacing marks satisfies both database facts, and on
`"  Hello!!  How are  you?  "` the normalized form `"hello ! ! how are you ?"`
is reproduced by a second pass. -/
theorem normalizeString_idempotent_witness :
    normalizeString (fun c => [c]) (fun _ => false) "  Hello!!  How are  you?  " =
      "hello ! ! how are you ?" ∧
    normalizeString (fun c => [c]) (fun _ => false)
        (normalizeString (fun c => [c]) (fun _ => false) "  Hello!!  How are  you?  ") =
      normalizeString (fun c => [c]) (fun _ => false) "  Hello!!  How are  you?  " :=
  ⟨by decide,
    normalizeString_idempotent (fun c => [c]) (fun _ => false)
      (fun _ _ => ⟨rfl, rfl⟩)
      (fun c c' hc hc' => by
        have : c' = c := by simpa using hc'
        subst this
        exact hc)
      "  Hello!!  How are  you?  "⟩
